import Mathlib

/-!
Verification of the RoleOut PNG metadata codec (src/png-metadata.js) and the
batch export orchestrator (src/export-manager.js).

Bytes are modelled as natural numbers (values < 256 where the JS runtime
guarantees it); byte streams are lists of naturals.  JavaScript 32-bit
unsigned arithmetic stays below 2^32 throughout the CRC computation, so no
wrap-around is needed there; chunk length fields wrap modulo 2^32 exactly as
DataView.setUint32 does.
-/

set_option maxRecDepth 4000

/-! ## Byte-level helpers -/

/-- Big-endian 4-byte encoding, as DataView.setUint32 (wraps modulo 2^32). -/
def u32be (n : Nat) : List Nat :=
  [n / 2 ^ 24 % 256, n / 2 ^ 16 % 256, n / 2 ^ 8 % 256, n % 256]

/-- Big-endian 4-byte read, as DataView.getUint32. -/
def readBE32 (l : List Nat) : Nat :=
  match l with
  | [a, b, c, d] => ((a * 256 + b) * 256 + c) * 256 + d
  | _ => 0

theorem u32be_length (n : Nat) : (u32be n).length = 4 := rfl

theorem readBE32_u32be (n : Nat) (h : n < 2 ^ 32) : readBE32 (u32be n) = n := by
  simp only [u32be, readBE32]
  omega

/-! ## CRC32 (src/png-metadata.js lines 12-32)

`crcTable n` is the table entry produced by `makeCRCTable`; `crc32` is the
table-driven fold from the source.  `crcBit` / `crc32Spec` spell out the
reference bit-at-a-time reflected-polynomial 0xEDB88320 algorithm that the
spec describes; their agreement with the table-driven code is proved below. -/

/-- One bit step of the reflected CRC32, exactly the inner loop of
`makeCRCTable`: `c = (c & 1) ? (0xEDB88320 ^ (c >>> 1)) : (c >>> 1)`. -/
def crcBit (c : Nat) : Nat :=
  if c &&& 1 = 1 then 0xEDB88320 ^^^ (c >>> 1) else c >>> 1

/-- Eight `crcBit` steps. -/
def crcBit8 (c : Nat) : Nat :=
  crcBit (crcBit (crcBit (crcBit (crcBit (crcBit (crcBit (crcBit c)))))))

/-- Table entry `n` of `makeCRCTable`: start from `n` and run 8 bit steps. -/
def crcTable (n : Nat) : Nat := crcBit8 n

/-- One byte of the table-driven loop of `crc32`:
`crc = table[(crc ^ data[i]) & 0xFF] ^ (crc >>> 8)`. -/
def crc32Step (crc d : Nat) : Nat :=
  crcTable ((crc ^^^ d) &&& 0xFF) ^^^ (crc >>> 8)

/-- `crc32` from the source: init 0xFFFFFFFF, table-driven fold, final XOR. -/
def crc32 (data : List Nat) : Nat :=
  (data.foldl crc32Step 0xFFFFFFFF) ^^^ 0xFFFFFFFF

/-- Reference byte step: XOR the byte in, then run 8 reflected-polynomial bit
steps on the whole register. -/
def crc32SpecStep (crc d : Nat) : Nat := crcBit8 (crc ^^^ d)

/-- The standard bit-at-a-time reflected-0xEDB88320 CRC32 with initial and
final XOR 0xFFFFFFFF. -/
def crc32Spec (data : List Nat) : Nat :=
  (data.foldl crc32SpecStep 0xFFFFFFFF) ^^^ 0xFFFFFFFF

theorem shiftRight_xor_distrib (a b n : Nat) :
    (a ^^^ b) >>> n = (a >>> n) ^^^ (b >>> n) := by
  apply Nat.eq_of_testBit_eq
  intro i
  simp [Nat.testBit_shiftRight, Nat.testBit_xor]

theorem xor_left_comm_nat (x y z : Nat) : x ^^^ (y ^^^ z) = y ^^^ (x ^^^ z) := by
  rw [← Nat.xor_assoc, Nat.xor_comm x y, Nat.xor_assoc]

theorem crcBit_xor (a b : Nat) : crcBit (a ^^^ b) = crcBit a ^^^ crcBit b := by
  have hx : (a ^^^ b) &&& 1 = (a &&& 1) ^^^ (b &&& 1) := Nat.and_xor_distrib_right
  have ha2 : a &&& 1 = a % 2 := Nat.and_one_is_mod a
  have hb2 : b &&& 1 = b % 2 := Nat.and_one_is_mod b
  have key : ∀ x y p : Nat, (p ^^^ x) ^^^ (p ^^^ y) = x ^^^ y := by
    intro x y p
    rw [Nat.xor_assoc, xor_left_comm_nat x, Nat.xor_cancel_left]
  simp only [crcBit, shiftRight_xor_distrib, hx, ha2, hb2]
  rcases Nat.mod_two_eq_zero_or_one a with ha | ha <;>
    rcases Nat.mod_two_eq_zero_or_one b with hb | hb <;> rw [ha, hb]
  · rw [if_neg (by decide), if_neg (by decide), if_neg (by decide)]
  · rw [if_pos (by decide), if_neg (by decide), if_pos (by decide)]
    exact xor_left_comm_nat _ _ _
  · rw [if_pos (by decide), if_pos (by decide), if_neg (by decide)]
    exact (Nat.xor_assoc _ _ _).symm
  · rw [if_neg (by decide), if_pos (by decide), if_pos (by decide)]
    exact (key _ _ _).symm

theorem crcBit8_xor (a b : Nat) : crcBit8 (a ^^^ b) = crcBit8 a ^^^ crcBit8 b := by
  simp [crcBit8, crcBit_xor]

theorem crcBit_shiftLeft (y k : Nat) : crcBit (y <<< (k + 1)) = y <<< k := by
  have hpow : (2 : Nat) ^ (k + 1) = 2 ^ k * 2 := by ring
  have h1 : (y <<< (k + 1)) &&& 1 = 0 := by
    rw [Nat.and_one_is_mod, Nat.shiftLeft_eq, hpow, ← Nat.mul_assoc]
    simp [Nat.mul_mod_left]
  have h2 : (y <<< (k + 1)) >>> 1 = y <<< k := by
    rw [Nat.shiftLeft_eq, Nat.shiftLeft_eq, Nat.shiftRight_eq_div_pow, hpow,
      ← Nat.mul_assoc, pow_one]
    exact Nat.mul_div_cancel (y * 2 ^ k) (by norm_num)
  simp [crcBit, h1, h2]

theorem crcBit8_shiftLeft8 (y : Nat) : crcBit8 (y <<< 8) = y := by
  simp only [crcBit8]
  rw [show (8 : Nat) = 7 + 1 from rfl, crcBit_shiftLeft]
  rw [show (7 : Nat) = 6 + 1 from rfl, crcBit_shiftLeft]
  rw [show (6 : Nat) = 5 + 1 from rfl, crcBit_shiftLeft]
  rw [show (5 : Nat) = 4 + 1 from rfl, crcBit_shiftLeft]
  rw [show (4 : Nat) = 3 + 1 from rfl, crcBit_shiftLeft]
  rw [show (3 : Nat) = 2 + 1 from rfl, crcBit_shiftLeft]
  rw [show (2 : Nat) = 1 + 1 from rfl, crcBit_shiftLeft]
  rw [show (1 : Nat) = 0 + 1 from rfl, crcBit_shiftLeft]
  simp

/-- Decompose a natural into its high part (shifted) XOR its low byte. -/
theorem xor_high_low (x : Nat) : x = ((x >>> 8) <<< 8) ^^^ (x &&& 0xFF) := by
  apply Nat.eq_of_testBit_eq
  intro i
  simp only [Nat.testBit_xor, Nat.testBit_and, Nat.testBit_shiftLeft,
    Nat.testBit_shiftRight]
  by_cases h : 8 ≤ i
  · have h255 : Nat.testBit 0xFF i = false := by
      have : (0xFF : Nat) < 2 ^ i := by
        calc (0xFF : Nat) < 2 ^ 8 := by norm_num
        _ ≤ 2 ^ i := Nat.pow_le_pow_right (by norm_num) h
      exact Nat.testBit_lt_two_pow this
    simp [h, h255, Nat.add_sub_cancel' h]
  · have h255 : Nat.testBit 0xFF i = true := by
      interval_cases i <;> decide
    simp [h, h255]

/-- The key split: 8 bit steps on a register equal 8 bit steps on its low
byte XORed with the plain right shift of its high bits. -/
theorem crcBit8_split (x : Nat) : crcBit8 x = (x >>> 8) ^^^ crcBit8 (x &&& 0xFF) := by
  conv_lhs => rw [xor_high_low x]
  rw [crcBit8_xor, crcBit8_shiftLeft8]

/-- For byte input, the table-driven step agrees with the reference bit-wise
step. -/
theorem crc32Step_eq_spec (crc d : Nat) (hd : d < 256) :
    crc32Step crc d = crc32SpecStep crc d := by
  have hshift : d >>> 8 = 0 := by
    rw [Nat.shiftRight_eq_div_pow]
    omega
  have h1 : (crc ^^^ d) >>> 8 = crc >>> 8 := by
    rw [shiftRight_xor_distrib, hshift, Nat.xor_zero]
  simp only [crc32Step, crc32SpecStep, crcTable]
  rw [crcBit8_split (crc ^^^ d), h1, Nat.xor_comm]

theorem crc32_foldl_congr (t : List Nat) (init : Nat) (ht : ∀ b ∈ t, b < 256) :
    t.foldl crc32Step init = t.foldl crc32SpecStep init := by
  induction t generalizing init with
  | nil => rfl
  | cons d t ih =>
    have hd : d < 256 := ht d (by simp)
    simp only [List.foldl_cons, crc32Step_eq_spec _ _ hd]
    exact ih _ (fun b hb => ht b (List.mem_cons_of_mem _ hb))

/-- The table-driven `crc32` of the source equals the standard bit-at-a-time
reflected-polynomial-0xEDB88320 CRC32 on byte streams. -/
theorem crc32_eq_crc32Spec (data : List Nat) (h : ∀ b ∈ data, b < 256) :
    crc32 data = crc32Spec data := by
  simp only [crc32, crc32Spec]
  rw [crc32_foldl_congr data _ h]

/-! ## Chunk construction (src/png-metadata.js lines 40-61) -/

/-- ASCII bytes of the chunk type tag "tEXt". -/
def tEXtBytes : List Nat := [116, 69, 88, 116]

/-- ASCII bytes of the chunk type tag "IEND". -/
def iendBytes : List Nat := [73, 69, 78, 68]

/-- `createChunk` for a 4-byte type tag:
length (4 BE) | type (4) | data | crc32(type ++ data) (4 BE). -/
def createChunk (ty : List Nat) (data : List Nat) : List Nat :=
  u32be data.length ++ ty ++ data ++ u32be (crc32 (ty ++ data))

/-! ## Chunk stream parsing (src/png-metadata.js lines 68-93)

The JS loop indexes with an absolute `offset`; each iteration reads a 4-byte
big-endian length (DataView.getUint32 — which throws a RangeError when fewer
than 4 bytes remain), the 4-byte type tag and `length` payload bytes
(Uint8Array.slice, which clamps), records the chunk, advances by
`4+4+length+4`, and stops after an IEND chunk.  Each iteration advances the
offset by at least 12, so `png.length + 1` iterations can never be cut short;
the fuel below is therefore only a termination device. -/

inductive PngErr where
  | badSignature
  | rangeError
  | missingIEND
deriving DecidableEq, Repr

structure Chunk where
  ty : List Nat
  data : List Nat
  offset : Nat
deriving DecidableEq, Repr

def PNG_SIGNATURE : List Nat := [137, 80, 78, 71, 13, 10, 26, 10]

def parseLoop (png : List Nat) : Nat → Nat → Except PngErr (List Chunk)
  | 0, _ => .ok []
  | fuel + 1, offset =>
    if offset < png.length then
      if png.length < offset + 4 then .error .rangeError
      else
        let len := readBE32 ((png.drop offset).take 4)
        let ty := (png.drop (offset + 4)).take 4
        let data := (png.drop (offset + 8)).take len
        if ty = iendBytes then .ok [⟨ty, data, offset⟩]
        else
          match parseLoop png fuel (offset + 4 + 4 + len + 4) with
          | .ok rest => .ok (⟨ty, data, offset⟩ :: rest)
          | .error e => .error e
    else .ok []

/-- `parseChunks`: verify the 8-byte signature, then walk the chunk stream
starting at offset 8. -/
def parseChunks (png : List Nat) : Except PngErr (List Chunk) :=
  if png.take 8 = PNG_SIGNATURE then parseLoop png (png.length + 1) 8
  else .error .badSignature

/-- `insertChunkBeforeIEND` (lines 101-121): locate the first IEND chunk and
splice `newChunk` at its offset. -/
def insertChunkBeforeIEND (originalPng newChunk : List Nat) : Except PngErr (List Nat) :=
  match parseChunks originalPng with
  | .error e => .error e
  | .ok chunks =>
    match chunks.find? (fun c => c.ty == iendBytes) with
    | none => .error .missingIEND
    | some iendChunk =>
      .ok (originalPng.take iendChunk.offset ++ newChunk ++
        originalPng.drop iendChunk.offset)

/-! ## tEXt chunk reading (src/png-metadata.js lines 171-195) -/

/-- `readTextChunk`: only tEXt chunks; split the payload at the first zero
byte into `(storedKeyword, text)`; return the pair only when the stored
keyword equals the expected one. -/
def readTextChunk (chunk : Chunk) (keyword : List Nat) : Option (List Nat × List Nat) :=
  if chunk.ty = tEXtBytes then
    match chunk.data.findIdx? (fun b => b == 0) with
    | none => none
    | some nullIndex =>
      if chunk.data.take nullIndex = keyword then
        some (chunk.data.take nullIndex, chunk.data.drop (nullIndex + 1))
      else none
  else none

/-- First chunk accepted by `readTextChunk`, as the scan loop of
`extractMetadataFromPNG` (lines 207-227). -/
def findTextChunk (chunks : List Chunk) (keyword : List Nat) : Option (List Nat × List Nat) :=
  match chunks with
  | [] => none
  | c :: rest =>
    match readTextChunk c keyword with
    | some r => some r
    | none => findTextChunk rest keyword

/-! ## Base64 (the `btoa` / `atob` built-ins used by lines 155 and 215)

`atob` implements the WHATWG forgiving-base64 decode: strip ASCII
whitespace, then (when the length is a multiple of 4) up to two trailing
`=`, reject a length of 1 mod 4 and any character outside the alphabet. -/

def b64chr (n : Nat) : Nat :=
  if n < 26 then 65 + n
  else if n < 52 then 97 + (n - 26)
  else if n < 62 then 48 + (n - 52)
  else if n = 62 then 43
  else 47

def b64val (c : Nat) : Nat :=
  if 65 ≤ c ∧ c ≤ 90 then c - 65
  else if 97 ≤ c ∧ c ≤ 122 then c - 97 + 26
  else if 48 ≤ c ∧ c ≤ 57 then c - 48 + 52
  else if c = 43 then 62
  else 63

def isB64Char (c : Nat) : Bool :=
  decide ((65 ≤ c ∧ c ≤ 90) ∨ (97 ≤ c ∧ c ≤ 122) ∨ (48 ≤ c ∧ c ≤ 57) ∨ c = 43 ∨ c = 47)

def isB64Ws (c : Nat) : Bool :=
  decide (c = 9 ∨ c = 10 ∨ c = 12 ∨ c = 13 ∨ c = 32)

/-- `btoa` on a byte sequence (the source feeds it `String.fromCharCode` of
UTF-8 bytes, so every code unit is a byte). -/
def btoaBytes : List Nat → List Nat
  | [] => []
  | [a] => [b64chr (a / 4), b64chr (a % 4 * 16), 61, 61]
  | [a, b] => [b64chr (a / 4), b64chr (a % 4 * 16 + b / 16), b64chr (b % 16 * 4), 61]
  | a :: b :: c :: t =>
    b64chr (a / 4) :: b64chr (a % 4 * 16 + b / 16) :: b64chr (b % 16 * 4 + c / 64) ::
      b64chr (c % 64) :: btoaBytes t

/-- The unpadded encoding and the padding tail of `btoaBytes`. -/
def b64core : List Nat → List Nat
  | [] => []
  | [a] => [b64chr (a / 4), b64chr (a % 4 * 16)]
  | [a, b] => [b64chr (a / 4), b64chr (a % 4 * 16 + b / 16), b64chr (b % 16 * 4)]
  | a :: b :: c :: t =>
    b64chr (a / 4) :: b64chr (a % 4 * 16 + b / 16) :: b64chr (b % 16 * 4 + c / 64) ::
      b64chr (c % 64) :: b64core t

def b64padOf : List Nat → List Nat
  | [] => []
  | [_] => [61, 61]
  | [_, _] => [61]
  | _ :: _ :: _ :: t => b64padOf t

/-- Decode a whitespace-free, padding-free, validated base64 string. -/
def b64decodeRaw : List Nat → List Nat
  | [] => []
  | [_] => []
  | [c1, c2] => [b64val c1 * 4 + b64val c2 / 16]
  | [c1, c2, c3] =>
    [b64val c1 * 4 + b64val c2 / 16, b64val c2 % 16 * 16 + b64val c3 / 4]
  | c1 :: c2 :: c3 :: c4 :: t =>
    (b64val c1 * 4 + b64val c2 / 16) :: (b64val c2 % 16 * 16 + b64val c3 / 4) ::
      (b64val c3 % 4 * 64 + b64val c4) :: b64decodeRaw t

def stripOneEq (l : List Nat) : List Nat :=
  if l.getLast? = some 61 then l.dropLast else l

/-- `atob` (forgiving-base64) on byte/code-unit sequences; `none` models the
thrown InvalidCharacterError. -/
def atobBytes (s : List Nat) : Option (List Nat) :=
  let t := s.filter (fun c => ! isB64Ws c)
  let t1 := if t.length % 4 = 0 then stripOneEq (stripOneEq t) else t
  if t1.length % 4 = 1 then none
  else if t1.all isB64Char then some (b64decodeRaw t1) else none

/-! ### Base64 round trip -/

theorem b64chr_valid (n : Nat) : isB64Char (b64chr n) = true := by
  unfold b64chr isB64Char
  split_ifs <;> simp <;> omega

theorem b64chr_not_ws (n : Nat) : isB64Ws (b64chr n) = false := by
  unfold b64chr isB64Ws
  split_ifs <;> simp <;> omega

theorem isB64Char_ne_61 (c : Nat) (h : isB64Char c = true) : c ≠ 61 := by
  simp only [isB64Char, decide_eq_true_eq] at h
  omega

theorem b64val_b64chr : ∀ n, n < 64 → b64val (b64chr n) = n := by decide

theorem btoaBytes_eq_core_pad (bs : List Nat) :
    btoaBytes bs = b64core bs ++ b64padOf bs := by
  induction bs using btoaBytes.induct with
  | case1 => rfl
  | case2 a => rfl
  | case3 a b => rfl
  | case4 a b c t ih => simp [btoaBytes, b64core, b64padOf, ih]

theorem b64core_valid (bs : List Nat) : ∀ c ∈ b64core bs, isB64Char c = true := by
  induction bs using b64core.induct with
  | case1 => simp [b64core]
  | case2 a => simp [b64core, b64chr_valid]
  | case3 a b => simp [b64core, b64chr_valid]
  | case4 a b c t ih =>
    intro x hx
    simp only [b64core, List.mem_cons] at hx
    rcases hx with rfl | rfl | rfl | rfl | hx
    · exact b64chr_valid _
    · exact b64chr_valid _
    · exact b64chr_valid _
    · exact b64chr_valid _
    · exact ih x hx

theorem btoaBytes_no_ws (bs : List Nat) : ∀ c ∈ btoaBytes bs, isB64Ws c = false := by
  induction bs using btoaBytes.induct with
  | case1 => simp [btoaBytes]
  | case2 a => simp [btoaBytes, b64chr_not_ws]; decide
  | case3 a b => simp [btoaBytes, b64chr_not_ws]; decide
  | case4 a b c t ih =>
    intro x hx
    simp only [btoaBytes, List.mem_cons] at hx
    rcases hx with rfl | rfl | rfl | rfl | hx
    · exact b64chr_not_ws _
    · exact b64chr_not_ws _
    · exact b64chr_not_ws _
    · exact b64chr_not_ws _
    · exact ih x hx

theorem btoaBytes_length_mod (bs : List Nat) : (btoaBytes bs).length % 4 = 0 := by
  induction bs using btoaBytes.induct with
  | case1 => rfl
  | case2 a => simp [btoaBytes]
  | case3 a b => simp [btoaBytes]
  | case4 a b c t ih => simp only [btoaBytes, List.length_cons]; omega

theorem b64core_length_mod (bs : List Nat) : (b64core bs).length % 4 ≠ 1 := by
  induction bs using b64core.induct with
  | case1 => simp [b64core]
  | case2 a => simp [b64core]
  | case3 a b => simp [b64core]
  | case4 a b c t ih => simp only [b64core, List.length_cons]; omega

theorem stripOneEq_core (bs : List Nat) : stripOneEq (b64core bs) = b64core bs := by
  unfold stripOneEq
  rw [if_neg]
  intro h
  obtain ⟨l2, he⟩ := List.getLast?_eq_some_iff.mp h
  have hc : isB64Char 61 = true := b64core_valid bs 61 (by rw [he]; simp)
  exact absurd rfl (isB64Char_ne_61 61 hc)

theorem b64padOf_cases (l : List Nat) :
    b64padOf l = [] ∨ b64padOf l = [61, 61] ∨ b64padOf l = [61] := by
  induction l using b64padOf.induct with
  | case1 => simp [b64padOf]
  | case2 a => simp [b64padOf]
  | case3 a b => simp [b64padOf]
  | case4 a b c t ih => simpa [b64padOf] using ih

theorem stripOneEq_concat61 (l : List Nat) : stripOneEq (l ++ [61]) = l := by
  unfold stripOneEq
  rw [if_pos (List.getLast?_concat l), List.dropLast_concat]

theorem stripTwo_core_pad (bs : List Nat) :
    stripOneEq (stripOneEq (b64core bs ++ b64padOf bs)) = b64core bs := by
  rcases b64padOf_cases bs with hp | hp | hp <;> rw [hp]
  · rw [List.append_nil, stripOneEq_core, stripOneEq_core]
  · have hsplit : b64core bs ++ [61, 61] = (b64core bs ++ [61]) ++ [61] := by simp
    rw [hsplit, stripOneEq_concat61, stripOneEq_concat61]
  · rw [stripOneEq_concat61, stripOneEq_core]

theorem b64decodeRaw_core (bs : List Nat) (h : ∀ b ∈ bs, b < 256) :
    b64decodeRaw (b64core bs) = bs := by
  induction bs using b64core.induct with
  | case1 => rfl
  | case2 a =>
    have ha : a < 256 := h a (by simp)
    simp only [b64core, b64decodeRaw]
    rw [b64val_b64chr _ (by omega), b64val_b64chr _ (by omega)]
    have : a / 4 * 4 + a % 4 * 16 / 16 = a := by omega
    rw [this]
  | case3 a b =>
    have ha : a < 256 := h a (by simp)
    have hb : b < 256 := h b (by simp)
    simp only [b64core, b64decodeRaw]
    rw [b64val_b64chr _ (by omega), b64val_b64chr _ (by omega),
      b64val_b64chr _ (by omega)]
    have h1 : a / 4 * 4 + (a % 4 * 16 + b / 16) / 16 = a := by omega
    have h2 : (a % 4 * 16 + b / 16) % 16 * 16 + b % 16 * 4 / 4 = b := by omega
    rw [h1, h2]
  | case4 a b c t ih =>
    have ha : a < 256 := h a (by simp)
    have hb : b < 256 := h b (by simp)
    have hc : c < 256 := h c (by simp)
    have ht : ∀ x ∈ t, x < 256 := fun x hx => h x (by simp [hx])
    simp only [b64core, b64decodeRaw]
    rw [b64val_b64chr _ (by omega), b64val_b64chr _ (by omega),
      b64val_b64chr _ (by omega), b64val_b64chr _ (by omega)]
    have h1 : a / 4 * 4 + (a % 4 * 16 + b / 16) / 16 = a := by omega
    have h2 : (a % 4 * 16 + b / 16) % 16 * 16 + (b % 16 * 4 + c / 64) / 4 = b := by
      omega
    have h3 : (b % 16 * 4 + c / 64) % 4 * 64 + c % 64 = c := by omega
    rw [h1, h2, h3, ih ht]

/-- `atob` inverts `btoa` on byte sequences: the round trip of the base64
layer used by embed/extract. -/
theorem atobBytes_btoaBytes (bs : List Nat) (h : ∀ b ∈ bs, b < 256) :
    atobBytes (btoaBytes bs) = some bs := by
  have hfil : (btoaBytes bs).filter (fun c => ! isB64Ws c) = btoaBytes bs :=
    List.filter_eq_self.mpr (fun a ha => by rw [btoaBytes_no_ws bs a ha]; rfl)
  have hlen : (b64core bs ++ b64padOf bs).length % 4 = 0 := by
    rw [← btoaBytes_eq_core_pad]
    exact btoaBytes_length_mod bs
  simp only [atobBytes]
  rw [hfil, btoaBytes_eq_core_pad, if_pos hlen, stripTwo_core_pad,
    if_neg (b64core_length_mod bs),
    if_pos (List.all_eq_true.mpr (fun x hx => b64core_valid bs x hx)),
    b64decodeRaw_core bs h]

/-! ## JSON (the `JSON.stringify` / `JSON.parse` built-ins used by lines
150 and 221)

The value model restricts JSON numbers to integers (JavaScript numbers are
floats; integer-valued data below 2^53 prints and re-parses exactly, which
is the regime the metadata payloads live in).  Strings are modelled as their
UTF-8 byte sequences: `TextEncoder`/`TextDecoder` are then identities, and
`JSON.stringify` escaping acts per byte exactly as it acts per code unit on
the ASCII range, while bytes ≥ 0x80 pass through unescaped in both.  The
parser accepts the grammar `stringify` emits (plus the standard short
escapes and `\uXXXX` below 0x80); it has no use for whitespace skipping
since no producer in the pipeline emits whitespace.  Arrays and objects are
their own mutual inductives so that every function here is structurally
recursive. -/

mutual
inductive Json where
  | null : Json
  | bool : Bool → Json
  | num : Int → Json
  | str : List Nat → Json
  | arr : JsonList → Json
  | obj : JsonObj → Json
deriving Repr, DecidableEq
inductive JsonList where
  | nil : JsonList
  | cons : Json → JsonList → JsonList
deriving Repr, DecidableEq
inductive JsonObj where
  | nil : JsonObj
  | cons : List Nat → Json → JsonObj → JsonObj
deriving Repr, DecidableEq
end

def natToDigitsAux : Nat → Nat → List Nat → List Nat
  | 0, _, acc => acc
  | _, 0, acc => acc
  | fuel + 1, n, acc => natToDigitsAux fuel (n / 10) ((48 + n % 10) :: acc)

/-- Decimal ASCII digits of a natural number, most significant first. -/
def natToDigits (n : Nat) : List Nat :=
  if n = 0 then [48] else natToDigitsAux n n []

/-- `String(n)` for an integer: optional minus sign, then decimal digits. -/
def intToDigits (n : Int) : List Nat :=
  if n < 0 then 45 :: natToDigits n.natAbs else natToDigits n.natAbs

/-- Lowercase hex digit, as `Number.prototype.toString(16)`. -/
def hexDigitChar (d : Nat) : Nat := if d < 10 then 48 + d else 87 + d

/-- Per-code-unit escaping of `JSON.stringify` (quote, backslash, the short
control escapes, `\u00xx` for remaining control characters). -/
def escapeByte (b : Nat) : List Nat :=
  if b = 34 then [92, 34]
  else if b = 92 then [92, 92]
  else if b = 8 then [92, 98]
  else if b = 9 then [92, 116]
  else if b = 10 then [92, 110]
  else if b = 12 then [92, 102]
  else if b = 13 then [92, 114]
  else if b < 32 then [92, 117, 48, 48, hexDigitChar (b / 16), hexDigitChar (b % 16)]
  else [b]

def quoteStr (s : List Nat) : List Nat := 34 :: (s.flatMap escapeByte ++ [34])

mutual
def Json.stringify : Json → List Nat
  | .null => [110, 117, 108, 108]
  | .bool true => [116, 114, 117, 101]
  | .bool false => [102, 97, 108, 115, 101]
  | .num n => intToDigits n
  | .str s => quoteStr s
  | .arr l => 91 :: (Json.stringifyElems l ++ [93])
  | .obj l => 123 :: (Json.stringifyMembers l ++ [125])
def Json.stringifyElems : JsonList → List Nat
  | .nil => []
  | .cons x .nil => Json.stringify x
  | .cons x (.cons y t) => Json.stringify x ++ (44 :: Json.stringifyElems (.cons y t))
def Json.stringifyMembers : JsonObj → List Nat
  | .nil => []
  | .cons k v .nil => quoteStr k ++ (58 :: Json.stringify v)
  | .cons k v (.cons k2 v2 t) =>
    quoteStr k ++ (58 :: Json.stringify v) ++
      (44 :: Json.stringifyMembers (.cons k2 v2 t))
end

def isDigitByte (c : Nat) : Bool := decide (48 ≤ c ∧ c ≤ 57)

def digitsToNat (l : List Nat) : Nat := l.foldl (fun a d => a * 10 + (d - 48)) 0

/-- JSON number parsing, restricted to the integer grammar
`-?(0|[1-9][0-9]*)`. -/
def parseNumber (l : List Nat) : Option (Json × List Nat) :=
  match l with
  | 45 :: rest =>
    let ds := rest.takeWhile isDigitByte
    if ds = [] then none
    else if 1 < ds.length ∧ ds.headI = 48 then none
    else some (.num (-(digitsToNat ds : Int)), rest.dropWhile isDigitByte)
  | _ =>
    let ds := l.takeWhile isDigitByte
    if ds = [] then none
    else if 1 < ds.length ∧ ds.headI = 48 then none
    else some (.num (digitsToNat ds), l.dropWhile isDigitByte)

def parseHex (c : Nat) : Option Nat :=
  if 48 ≤ c ∧ c ≤ 57 then some (c - 48)
  else if 97 ≤ c ∧ c ≤ 102 then some (c - 97 + 10)
  else if 65 ≤ c ∧ c ≤ 70 then some (c - 65 + 10)
  else none

def unescapeChar (e : Nat) : Option Nat :=
  if e = 34 then some 34
  else if e = 92 then some 92
  else if e = 47 then some 47
  else if e = 98 then some 8
  else if e = 102 then some 12
  else if e = 110 then some 10
  else if e = 114 then some 13
  else if e = 116 then some 9
  else none

/-- JSON string-body parsing: content bytes up to the closing quote, with
escape handling.  A raw byte below 0x20 is rejected, as in JSON.parse. -/
def parseStringBody : List Nat → Option (List Nat × List Nat)
  | [] => none
  | c :: rest =>
    if c = 34 then some ([], rest)
    else if c = 92 then
      match rest with
      | [] => none
      | e :: rest2 =>
        if e = 117 then
          match rest2 with
          | h1 :: h2 :: h3 :: h4 :: rest3 =>
            match parseHex h1, parseHex h2, parseHex h3, parseHex h4 with
            | some d1, some d2, some d3, some d4 =>
              let code := ((d1 * 16 + d2) * 16 + d3) * 16 + d4
              if code < 128 then
                match parseStringBody rest3 with
                | some (s, r) => some (code :: s, r)
                | none => none
              else none
            | _, _, _, _ => none
          | _ => none
        else
          match unescapeChar e with
          | some u =>
            match parseStringBody rest2 with
            | some (s, r) => some (u :: s, r)
            | none => none
          | none => none
    else if 32 ≤ c then
      match parseStringBody rest with
      | some (s, r) => some (c :: s, r)
      | none => none
    else none

mutual
def parseValue : Nat → List Nat → Option (Json × List Nat)
  | 0, _ => none
  | fuel + 1, l =>
    match l with
    | [] => none
    | c :: rest =>
      if c = 110 then
        match rest with
        | 117 :: 108 :: 108 :: r => some (.null, r)
        | _ => none
      else if c = 116 then
        match rest with
        | 114 :: 117 :: 101 :: r => some (.bool true, r)
        | _ => none
      else if c = 102 then
        match rest with
        | 97 :: 108 :: 115 :: 101 :: r => some (.bool false, r)
        | _ => none
      else if c = 34 then
        match parseStringBody rest with
        | some (s, r) => some (.str s, r)
        | none => none
      else if c = 91 then
        if rest.head? = some 93 then some (.arr .nil, rest.tail)
        else
          match parseElems fuel rest with
          | some (vs, r) => some (.arr vs, r)
          | none => none
      else if c = 123 then
        if rest.head? = some 125 then some (.obj .nil, rest.tail)
        else
          match parseMembers fuel rest with
          | some (ms, r) => some (.obj ms, r)
          | none => none
      else if c = 45 ∨ isDigitByte c = true then parseNumber l
      else none
def parseElems : Nat → List Nat → Option (JsonList × List Nat)
  | 0, _ => none
  | fuel + 1, l =>
    match parseValue fuel l with
    | some (v, r) =>
      match r with
      | 93 :: r2 => some (.cons v .nil, r2)
      | 44 :: r2 =>
        match parseElems fuel r2 with
        | some (vs, r3) => some (.cons v vs, r3)
        | none => none
      | _ => none
    | none => none
def parseMembers : Nat → List Nat → Option (JsonObj × List Nat)
  | 0, _ => none
  | fuel + 1, l =>
    match l with
    | 34 :: rest =>
      match parseStringBody rest with
      | some (k, r) =>
        match r with
        | 58 :: r2 =>
          match parseValue fuel r2 with
          | some (v, r3) =>
            match r3 with
            | 125 :: r4 => some (.cons k v .nil, r4)
            | 44 :: r4 =>
              match parseMembers fuel r4 with
              | some (ms, r5) => some (.cons k v ms, r5)
              | none => none
            | _ => none
          | none => none
        | _ => none
      | none => none
    | _ => none
end

/-- `JSON.parse` on UTF-8 bytes: parse one value and require the whole input
consumed. -/
def jsonParse (l : List Nat) : Option Json :=
  match parseValue (l.length + 1) l with
  | some (v, []) => some v
  | _ => none

/-! ### Decimal digits -/

theorem natToDigitsAux_eq (fuel n : Nat) (acc : List Nat) (h : n ≤ fuel) :
    natToDigitsAux fuel n acc =
      ((Nat.digits 10 n).reverse.map (fun d => 48 + d)) ++ acc := by
  induction fuel generalizing n acc with
  | zero =>
    have : n = 0 := by omega
    subst this
    simp [natToDigitsAux]
  | succ fuel ih =>
    rcases Nat.eq_zero_or_pos n with rfl | hn
    · simp [natToDigitsAux]
    · have hd : Nat.digits 10 n = n % 10 :: Nat.digits 10 (n / 10) :=
        Nat.digits_def' (by norm_num) hn
      have hrec : n / 10 ≤ fuel := by omega
      have : natToDigitsAux (fuel + 1) n acc =
          natToDigitsAux fuel (n / 10) ((48 + n % 10) :: acc) := by
        rcases n with _ | m
        · omega
        · rfl
      rw [this, ih (n / 10) _ hrec, hd]
      simp

theorem natToDigits_eq (n : Nat) (hn : 0 < n) :
    natToDigits n = (Nat.digits 10 n).reverse.map (fun d => 48 + d) := by
  unfold natToDigits
  rw [if_neg (by omega), natToDigitsAux_eq n n [] (le_refl n), List.append_nil]

theorem natToDigits_ne_nil (n : Nat) : natToDigits n ≠ [] := by
  rcases Nat.eq_zero_or_pos n with rfl | hn
  · simp [natToDigits]
  · rw [natToDigits_eq n hn]
    simp [Nat.digits_ne_nil_iff_ne_zero.mpr (by omega : n ≠ 0)]

theorem natToDigits_all_digits (n : Nat) :
    ∀ d ∈ natToDigits n, 48 ≤ d ∧ d ≤ 57 := by
  rcases Nat.eq_zero_or_pos n with rfl | hn
  · intro d hd
    simp [natToDigits] at hd
    omega
  · rw [natToDigits_eq n hn]
    intro d hd
    simp only [List.mem_map, List.mem_reverse] at hd
    obtain ⟨x, hx, rfl⟩ := hd
    have := Nat.digits_lt_base (by norm_num) hx
    omega

theorem digitsToNat_rev_digits (n : Nat) :
    ∀ init, (((Nat.digits 10 n).reverse.map (fun d => 48 + d)).foldl
      (fun a d => a * 10 + (d - 48)) init) =
      init * 10 ^ (Nat.digits 10 n).length + n := by
  induction n using Nat.strong_induction_on with
  | _ n ih =>
    intro init
    rcases Nat.eq_zero_or_pos n with rfl | hn
    · simp
    · have hd : Nat.digits 10 n = n % 10 :: Nat.digits 10 (n / 10) :=
        Nat.digits_def' (by norm_num) hn
      have hlt : n / 10 < n := Nat.div_lt_self hn (by norm_num)
      rw [hd]
      simp only [List.reverse_cons, List.map_append, List.map_cons, List.map_nil,
        List.foldl_append, List.foldl_cons, List.foldl_nil, List.length_cons]
      rw [ih (n / 10) hlt init]
      have h48 : 48 + n % 10 - 48 = n % 10 := by omega
      rw [h48, pow_succ]
      have : n / 10 * 10 + n % 10 = n := by omega
      ring_nf
      omega

theorem digitsToNat_natToDigits (n : Nat) : digitsToNat (natToDigits n) = n := by
  rcases Nat.eq_zero_or_pos n with rfl | hn
  · simp [natToDigits, digitsToNat]
  · rw [natToDigits_eq n hn]
    unfold digitsToNat
    rw [digitsToNat_rev_digits n 0]
    simp

/-- The leading digit of a multi-digit decimal is never the character 0. -/
theorem natToDigits_no_leading_zero (n : Nat) :
    ¬(1 < (natToDigits n).length ∧ (natToDigits n).headI = 48) := by
  rcases Nat.eq_zero_or_pos n with rfl | hn
  · simp [natToDigits]
  · rintro ⟨hlen, hhead⟩
    rw [natToDigits_eq n hn] at hlen hhead
    have hne : Nat.digits 10 n ≠ [] := Nat.digits_ne_nil_iff_ne_zero.mpr (by omega)
    have hlast : (Nat.digits 10 n).getLast hne ≠ 0 :=
      Nat.getLast_digit_ne_zero 10 (by omega)
    have hrev : (Nat.digits 10 n).reverse ≠ [] := by simpa using hne
    rcases hr : (Nat.digits 10 n).reverse with _ | ⟨a, t⟩
    · exact absurd hr hrev
    · have hlast? : (Nat.digits 10 n).getLast? = some a := by
        rw [← List.head?_reverse, hr]
        rfl
      have hga : (Nat.digits 10 n).getLast hne = a := by
        have h2 := List.getLast?_eq_getLast (Nat.digits 10 n) hne
        rw [h2] at hlast?
        exact Option.some_inj.mp hlast?
      rw [hr] at hhead
      simp only [List.map_cons, List.headI] at hhead
      rw [hga] at hlast
      omega

/-! ### Number parsing round trip -/

/-- The remainder after a serialized value never starts with a digit (it is
empty or starts with a separator or closer), so number parsing stops exactly
at the value boundary. -/
def noDigitStart (r : List Nat) : Prop :=
  ∀ d, r.head? = some d → isDigitByte d = false

theorem takeWhile_append_all (l r : List Nat) (p : Nat → Bool)
    (h : ∀ a ∈ l, p a = true) : (l ++ r).takeWhile p = l ++ r.takeWhile p := by
  induction l with
  | nil => simp
  | cons a t ih =>
    simp only [List.cons_append, List.takeWhile_cons, h a (by simp), if_true]
    rw [ih (fun x hx => h x (by simp [hx]))]

theorem dropWhile_append_all (l r : List Nat) (p : Nat → Bool)
    (h : ∀ a ∈ l, p a = true) : (l ++ r).dropWhile p = r.dropWhile p := by
  induction l with
  | nil => simp
  | cons a t ih =>
    simp only [List.cons_append, List.dropWhile_cons, h a (by simp), if_true]
    rw [ih (fun x hx => h x (by simp [hx]))]

theorem takeWhile_noDigit (r : List Nat) (h : noDigitStart r) :
    r.takeWhile isDigitByte = [] := by
  cases r with
  | nil => rfl
  | cons a t =>
    have := h a rfl
    simp [List.takeWhile_cons, this]

theorem dropWhile_noDigit (r : List Nat) (h : noDigitStart r) :
    r.dropWhile isDigitByte = r := by
  cases r with
  | nil => rfl
  | cons a t =>
    have := h a rfl
    simp [List.dropWhile_cons, this]

theorem natToDigits_isDigit (n : Nat) :
    ∀ a ∈ natToDigits n, isDigitByte a = true := by
  intro a ha
  have := natToDigits_all_digits n a ha
  simp only [isDigitByte, decide_eq_true_eq]
  omega

theorem parseNumber_natToDigits (m : Nat) (rest : List Nat) (hr : noDigitStart rest) :
    (natToDigits m ++ rest).takeWhile isDigitByte = natToDigits m ∧
    (natToDigits m ++ rest).dropWhile isDigitByte = rest := by
  constructor
  · rw [takeWhile_append_all _ _ _ (natToDigits_isDigit m), takeWhile_noDigit rest hr,
      List.append_nil]
  · rw [dropWhile_append_all _ _ _ (natToDigits_isDigit m), dropWhile_noDigit rest hr]

theorem parseNumber_intToDigits (n : Int) (rest : List Nat) (hr : noDigitStart rest) :
    parseNumber (intToDigits n ++ rest) = some (.num n, rest) := by
  obtain ⟨htake, hdrop⟩ := parseNumber_natToDigits n.natAbs rest hr
  by_cases hneg : n < 0
  · have hi : intToDigits n = 45 :: natToDigits n.natAbs := by
      simp [intToDigits, hneg]
    rw [hi, List.cons_append]
    simp only [parseNumber, htake, hdrop]
    rw [if_neg (natToDigits_ne_nil n.natAbs), if_neg (natToDigits_no_leading_zero _)]
    have : -(digitsToNat (natToDigits n.natAbs) : Int) = n := by
      rw [digitsToNat_natToDigits]
      omega
    rw [this]
  · have hi : intToDigits n = natToDigits n.natAbs := by
      simp [intToDigits, hneg]
    rw [hi]
    rcases hd : natToDigits n.natAbs with _ | ⟨d, tl⟩
    · exact absurd hd (natToDigits_ne_nil _)
    · have hdig : 48 ≤ d ∧ d ≤ 57 := natToDigits_all_digits n.natAbs d (by rw [hd]; simp)
      rw [← hd]
      have hshape : natToDigits n.natAbs ++ rest = d :: (tl ++ rest) := by
        rw [hd]; rfl
      unfold parseNumber
      rw [hshape]
      split
      · next heq =>
        have h45 : d = 45 := by
          have h2 := congrArg List.head? heq
          simpa using h2
        omega
      · next l2 heq =>
        rw [← hshape, htake, hdrop]
        simp only
        rw [if_neg (natToDigits_ne_nil n.natAbs), if_neg (natToDigits_no_leading_zero _)]
        have : (digitsToNat (natToDigits n.natAbs) : Int) = n := by
          rw [digitsToNat_natToDigits]
          omega
        rw [this]

/-! ### String parsing round trip -/

theorem parseHex_hexDigitChar : ∀ d, d < 16 → parseHex (hexDigitChar d) = some d := by
  decide

theorem parseStringBody_esc2 (e u : Nat) (X : List Nat) (s r : List Nat)
    (hu : unescapeChar e = some u) (h117 : e ≠ 117)
    (hX : parseStringBody X = some (s, r)) :
    parseStringBody (92 :: e :: X) = some (u :: s, r) := by
  rw [parseStringBody.eq_def]
  simp only [if_neg (by omega : ¬ (92 : Nat) = 34), if_pos trivial, if_neg h117,
    hu, hX]

theorem parseStringBody_escRaw (c : Nat) (X : List Nat) (s r : List Nat)
    (h34 : c ≠ 34) (h92 : c ≠ 92) (h32 : 32 ≤ c)
    (hX : parseStringBody X = some (s, r)) :
    parseStringBody (c :: X) = some (c :: s, r) := by
  rw [parseStringBody.eq_def]
  simp only [if_neg h34, if_neg h92, if_pos h32, hX]

theorem parseStringBody_escHex (b : Nat) (X : List Nat) (s r : List Nat)
    (hb : b < 32) (hX : parseStringBody X = some (s, r)) :
    parseStringBody (92 :: 117 :: 48 :: 48 :: hexDigitChar (b / 16) ::
      hexDigitChar (b % 16) :: X) = some (b :: s, r) := by
  rw [parseStringBody.eq_def]
  simp only [if_neg (by omega : ¬ (92 : Nat) = 34), if_pos trivial,
    show parseHex 48 = some 0 from rfl,
    parseHex_hexDigitChar (b / 16) (by omega),
    parseHex_hexDigitChar (b % 16) (by omega)]
  rw [if_pos (by omega : ((0 * 16 + 0) * 16 + b / 16) * 16 + b % 16 < 128), hX]
  have hcode : ((0 * 16 + 0) * 16 + b / 16) * 16 + b % 16 = b := by omega
  rw [hcode]

theorem parseStringBody_escape (s rest : List Nat) :
    parseStringBody (s.flatMap escapeByte ++ (34 :: rest)) = some (s, rest) := by
  induction s with
  | nil =>
    rw [List.flatMap_nil, List.nil_append, parseStringBody.eq_def]
    simp
  | cons b t ih =>
    have hshape : (b :: t).flatMap escapeByte ++ (34 :: rest) =
        escapeByte b ++ (t.flatMap escapeByte ++ (34 :: rest)) := by
      simp [List.flatMap_cons, List.append_assoc]
    rw [hshape]
    by_cases h34 : b = 34
    · subst h34
      rw [show escapeByte 34 = [92, 34] from rfl]
      exact parseStringBody_esc2 34 34 _ t rest rfl (by omega) ih
    · by_cases h92 : b = 92
      · subst h92
        rw [show escapeByte 92 = [92, 92] from rfl]
        exact parseStringBody_esc2 92 92 _ t rest rfl (by omega) ih
      · by_cases h8 : b = 8
        · subst h8
          rw [show escapeByte 8 = [92, 98] from rfl]
          exact parseStringBody_esc2 98 8 _ t rest rfl (by omega) ih
        · by_cases h9 : b = 9
          · subst h9
            rw [show escapeByte 9 = [92, 116] from rfl]
            exact parseStringBody_esc2 116 9 _ t rest rfl (by omega) ih
          · by_cases h10 : b = 10
            · subst h10
              rw [show escapeByte 10 = [92, 110] from rfl]
              exact parseStringBody_esc2 110 10 _ t rest rfl (by omega) ih
            · by_cases h12 : b = 12
              · subst h12
                rw [show escapeByte 12 = [92, 102] from rfl]
                exact parseStringBody_esc2 102 12 _ t rest rfl (by omega) ih
              · by_cases h13 : b = 13
                · subst h13
                  rw [show escapeByte 13 = [92, 114] from rfl]
                  exact parseStringBody_esc2 114 13 _ t rest rfl (by omega) ih
                · by_cases h32 : b < 32
                  · have he : escapeByte b = [92, 117, 48, 48,
                        hexDigitChar (b / 16), hexDigitChar (b % 16)] := by
                      unfold escapeByte
                      rw [if_neg h34, if_neg h92, if_neg h8, if_neg h9, if_neg h10,
                        if_neg h12, if_neg h13, if_pos h32]
                    rw [he]
                    exact parseStringBody_escHex b _ t rest h32 ih
                  · have he : escapeByte b = [b] := by
                      unfold escapeByte
                      rw [if_neg h34, if_neg h92, if_neg h8, if_neg h9, if_neg h10,
                        if_neg h12, if_neg h13, if_neg h32]
                    rw [he]
                    exact parseStringBody_escRaw b _ t rest h34 h92 (by omega) ih

/-! ### Full parse/stringify round trip -/

mutual
def jsize : Json → Nat
  | .null => 1
  | .bool _ => 1
  | .num _ => 1
  | .str _ => 1
  | .arr l => 1 + jsizeL l
  | .obj l => 1 + jsizeM l
def jsizeL : JsonList → Nat
  | .nil => 0
  | .cons x t => jsize x + 1 + jsizeL t
def jsizeM : JsonObj → Nat
  | .nil => 0
  | .cons _ v t => jsize v + 1 + jsizeM t
end

theorem jsize_pos (v : Json) : 1 ≤ jsize v := by
  cases v <;> simp only [jsize] <;> omega

theorem intToDigits_head (n : Int) :
    ∃ c tl, intToDigits n = c :: tl ∧ (c = 45 ∨ (48 ≤ c ∧ c ≤ 57)) := by
  by_cases hneg : n < 0
  · exact ⟨45, natToDigits n.natAbs, by simp [intToDigits, hneg], Or.inl rfl⟩
  · rcases hd : natToDigits n.natAbs with _ | ⟨d, tl⟩
    · exact absurd hd (natToDigits_ne_nil _)
    · refine ⟨d, tl, by simp [intToDigits, hneg, hd], Or.inr ?_⟩
      exact natToDigits_all_digits n.natAbs d (by rw [hd]; simp)

theorem stringify_head (v : Json) :
    ∃ c tl, Json.stringify v = c :: tl ∧ c ≠ 93 ∧ c ≠ 125 := by
  cases v with
  | null => exact ⟨110, _, rfl, by omega, by omega⟩
  | bool b =>
    cases b with
    | false => exact ⟨102, _, rfl, by omega, by omega⟩
    | true => exact ⟨116, _, rfl, by omega, by omega⟩
  | num n =>
    obtain ⟨c, tl, hct, hc⟩ := intToDigits_head n
    exact ⟨c, tl, by simp [Json.stringify, hct], by omega, by omega⟩
  | str s => exact ⟨34, _, rfl, by omega, by omega⟩
  | arr l => exact ⟨91, _, rfl, by omega, by omega⟩
  | obj l => exact ⟨123, _, rfl, by omega, by omega⟩

theorem stringifyElems_head (x : Json) (t : JsonList) :
    ∃ c tl, Json.stringifyElems (.cons x t) = c :: tl ∧ c ≠ 93 ∧ c ≠ 125 := by
  obtain ⟨c, tl, hct, h93, h125⟩ := stringify_head x
  cases t with
  | nil => exact ⟨c, tl, by simp [Json.stringifyElems, hct], h93, h125⟩
  | cons y t2 =>
    refine ⟨c, tl ++ (44 :: Json.stringifyElems (.cons y t2)), ?_, h93, h125⟩
    simp [Json.stringifyElems, hct]

theorem noDigitStart_cons (c : Nat) (t : List Nat) (h : isDigitByte c = false) :
    noDigitStart (c :: t) := by
  intro d hd
  simp only [List.head?] at hd
  cases hd
  exact h

theorem noDigitStart_nil : noDigitStart [] := by
  intro d hd
  simp [List.head?] at hd

theorem parse_stringify_aux : ∀ fuel : Nat,
    (∀ v rest, jsize v < fuel → noDigitStart rest →
      parseValue fuel (Json.stringify v ++ rest) = some (v, rest)) ∧
    (∀ x t rest, jsizeL (.cons x t) < fuel →
      parseElems fuel (Json.stringifyElems (.cons x t) ++ (93 :: rest)) =
        some (.cons x t, rest)) ∧
    (∀ k v t rest, jsizeM (.cons k v t) < fuel →
      parseMembers fuel (Json.stringifyMembers (.cons k v t) ++ (125 :: rest)) =
        some (.cons k v t, rest)) := by
  intro fuel
  induction fuel with
  | zero =>
    refine ⟨?_, ?_, ?_⟩
    · intro v rest h _
      omega
    · intro x t rest h
      omega
    · intro k v t rest h
      omega
  | succ fuel ih =>
    obtain ⟨ihV, ihE, ihM⟩ := ih
    refine ⟨?_, ?_, ?_⟩
    · intro v rest hsz hnds
      cases v with
      | null =>
        rw [show Json.stringify .null ++ rest = 110 :: 117 :: 108 :: 108 :: rest
          from rfl]
        rw [parseValue.eq_def]
        simp
      | bool b =>
        cases b with
        | true =>
          rw [show Json.stringify (.bool true) ++ rest =
            116 :: 114 :: 117 :: 101 :: rest from rfl]
          rw [parseValue.eq_def]
          simp
        | false =>
          rw [show Json.stringify (.bool false) ++ rest =
            102 :: 97 :: 108 :: 115 :: 101 :: rest from rfl]
          rw [parseValue.eq_def]
          simp
      | num n =>
        obtain ⟨c, tl, hct, hc⟩ := intToDigits_head n
        have hs : Json.stringify (.num n) = intToDigits n := rfl
        rw [hs, hct, List.cons_append, parseValue.eq_def]
        have h110 : ¬ c = 110 := by omega
        have h116 : ¬ c = 116 := by omega
        have h102 : ¬ c = 102 := by omega
        have h34 : ¬ c = 34 := by omega
        have h91 : ¬ c = 91 := by omega
        have h123 : ¬ c = 123 := by omega
        have hnum : c = 45 ∨ isDigitByte c = true := by
          rcases hc with rfl | hc
          · exact Or.inl rfl
          · refine Or.inr ?_
            simp only [isDigitByte, decide_eq_true_eq]
            omega
        simp only [if_neg h110, if_neg h116, if_neg h102, if_neg h34, if_neg h91,
          if_neg h123, if_pos hnum]
        rw [← List.cons_append, ← hct]
        exact parseNumber_intToDigits n rest hnds
      | str s =>
        have hs : Json.stringify (.str s) ++ rest =
            34 :: (s.flatMap escapeByte ++ (34 :: rest)) := by
          show quoteStr s ++ rest = _
          simp [quoteStr]
        rw [hs, parseValue.eq_def]
        simp only [if_neg (by omega : ¬ (34 : Nat) = 110),
          if_neg (by omega : ¬ (34 : Nat) = 116),
          if_neg (by omega : ¬ (34 : Nat) = 102), if_pos trivial,
          parseStringBody_escape]
      | arr l =>
        cases l with
        | nil =>
          rw [show Json.stringify (.arr .nil) ++ rest = 91 :: 93 :: rest from rfl]
          rw [parseValue.eq_def]
          simp
        | cons x t =>
          obtain ⟨c, tl, hct, h93, _⟩ := stringifyElems_head x t
          have hs : Json.stringify (.arr (.cons x t)) ++ rest =
              91 :: (Json.stringifyElems (.cons x t) ++ (93 :: rest)) := by
            show 91 :: (Json.stringifyElems (.cons x t) ++ [93]) ++ rest = _
            simp
          rw [hs, parseValue.eq_def]
          have hhead : (Json.stringifyElems (.cons x t) ++ (93 :: rest)).head? ≠
              some 93 := by
            rw [hct, List.cons_append]
            simp
            omega
          have hE : parseElems fuel
              (Json.stringifyElems (.cons x t) ++ (93 :: rest)) =
              some (.cons x t, rest) := by
            apply ihE
            simp only [jsize] at hsz
            omega
          simp only [if_neg (by omega : ¬ (91 : Nat) = 110),
            if_neg (by omega : ¬ (91 : Nat) = 116),
            if_neg (by omega : ¬ (91 : Nat) = 102),
            if_neg (by omega : ¬ (91 : Nat) = 34), if_pos trivial, if_neg hhead, hE]
      | obj l =>
        cases l with
        | nil =>
          rw [show Json.stringify (.obj .nil) ++ rest = 123 :: 125 :: rest from rfl]
          rw [parseValue.eq_def]
          simp
        | cons k v t =>
          have hs : Json.stringify (.obj (.cons k v t)) ++ rest =
              123 :: (Json.stringifyMembers (.cons k v t) ++ (125 :: rest)) := by
            show 123 :: (Json.stringifyMembers (.cons k v t) ++ [125]) ++ rest = _
            simp
          rw [hs, parseValue.eq_def]
          have hhead : (Json.stringifyMembers (.cons k v t) ++ (125 :: rest)).head? ≠
              some 125 := by
            have hm : ∃ mtl, Json.stringifyMembers (.cons k v t) = 34 :: mtl := by
              cases t with
              | nil => exact ⟨_, rfl⟩
              | cons k2 v2 t2 => exact ⟨_, rfl⟩
            obtain ⟨mtl, hm⟩ := hm
            rw [hm, List.cons_append]
            simp
          have hM : parseMembers fuel
              (Json.stringifyMembers (.cons k v t) ++ (125 :: rest)) =
              some (.cons k v t, rest) := by
            apply ihM
            simp only [jsize] at hsz
            omega
          simp only [if_neg (by omega : ¬ (123 : Nat) = 110),
            if_neg (by omega : ¬ (123 : Nat) = 116),
            if_neg (by omega : ¬ (123 : Nat) = 102),
            if_neg (by omega : ¬ (123 : Nat) = 34),
            if_neg (by omega : ¬ (123 : Nat) = 91), if_pos trivial, if_neg hhead, hM]
    · intro x t rest hsz
      cases t with
      | nil =>
        have hV : parseValue fuel (Json.stringify x ++ (93 :: rest)) =
            some (x, 93 :: rest) := by
          apply ihV
          · simp only [jsizeL] at hsz
            omega
          · exact noDigitStart_cons 93 rest rfl
        rw [show Json.stringifyElems (.cons x .nil) = Json.stringify x from rfl]
        rw [parseElems.eq_def]
        simp only [hV]
      | cons y t2 =>
        have hx1 : 1 ≤ jsize x := jsize_pos x
        have hV : parseValue fuel (Json.stringify x ++
            (44 :: (Json.stringifyElems (.cons y t2) ++ (93 :: rest)))) =
            some (x, 44 :: (Json.stringifyElems (.cons y t2) ++ (93 :: rest))) := by
          apply ihV
          · simp only [jsizeL] at hsz
            omega
          · exact noDigitStart_cons 44 _ rfl
        have hE : parseElems fuel
            (Json.stringifyElems (.cons y t2) ++ (93 :: rest)) =
            some (.cons y t2, rest) := by
          apply ihE
          simp only [jsizeL] at hsz ⊢
          omega
        have hs : Json.stringifyElems (.cons x (.cons y t2)) ++ (93 :: rest) =
            Json.stringify x ++
              (44 :: (Json.stringifyElems (.cons y t2) ++ (93 :: rest))) := by
          show (Json.stringify x ++ (44 :: Json.stringifyElems (.cons y t2))) ++
            (93 :: rest) = _
          simp
        rw [hs, parseElems.eq_def]
        simp only [hV, hE]
    · intro k v t rest hsz
      cases t with
      | nil =>
        have hV : parseValue fuel (Json.stringify v ++ (125 :: rest)) =
            some (v, 125 :: rest) := by
          apply ihV
          · simp only [jsizeM] at hsz
            omega
          · exact noDigitStart_cons 125 rest rfl
        have hs : Json.stringifyMembers (.cons k v .nil) ++ (125 :: rest) =
            34 :: (k.flatMap escapeByte ++
              (34 :: (58 :: (Json.stringify v ++ (125 :: rest))))) := by
          show (quoteStr k ++ (58 :: Json.stringify v)) ++ (125 :: rest) = _
          simp [quoteStr]
        rw [hs, parseMembers.eq_def]
        simp only [parseStringBody_escape, hV]
      | cons k2 v2 t2 =>
        have hv1 : 1 ≤ jsize v := jsize_pos v
        have hV : parseValue fuel (Json.stringify v ++
            (44 :: (Json.stringifyMembers (.cons k2 v2 t2) ++ (125 :: rest)))) =
            some (v, 44 :: (Json.stringifyMembers (.cons k2 v2 t2) ++
              (125 :: rest))) := by
          apply ihV
          · simp only [jsizeM] at hsz
            omega
          · exact noDigitStart_cons 44 _ rfl
        have hM : parseMembers fuel
            (Json.stringifyMembers (.cons k2 v2 t2) ++ (125 :: rest)) =
            some (.cons k2 v2 t2, rest) := by
          apply ihM
          simp only [jsizeM] at hsz ⊢
          omega
        have hs : Json.stringifyMembers (.cons k v (.cons k2 v2 t2)) ++
            (125 :: rest) =
            34 :: (k.flatMap escapeByte ++ (34 :: (58 :: (Json.stringify v ++
              (44 :: (Json.stringifyMembers (.cons k2 v2 t2) ++
                (125 :: rest))))))) := by
          show (quoteStr k ++ (58 :: Json.stringify v) ++
            (44 :: Json.stringifyMembers (.cons k2 v2 t2))) ++ (125 :: rest) = _
          simp [quoteStr]
        rw [hs, parseMembers.eq_def]
        simp only [parseStringBody_escape, hV, hM]

theorem jsize_le_len_aux : ∀ n : Nat,
    (∀ v, jsize v ≤ n → jsize v ≤ (Json.stringify v).length) ∧
    (∀ l, jsizeL l ≤ n → jsizeL l ≤ (Json.stringifyElems l).length + 1) ∧
    (∀ m, jsizeM m ≤ n → jsizeM m ≤ (Json.stringifyMembers m).length + 1) := by
  intro n
  induction n with
  | zero =>
    refine ⟨?_, ?_, ?_⟩
    · intro v h
      have := jsize_pos v
      omega
    · intro l h
      cases l with
      | nil => simp [jsizeL]
      | cons x t =>
        simp only [jsizeL] at h
        have := jsize_pos x
        omega
    · intro m h
      cases m with
      | nil => simp [jsizeM]
      | cons k v t =>
        simp only [jsizeM] at h
        have := jsize_pos v
        omega
  | succ n ih =>
    obtain ⟨ih1, ih2, ih3⟩ := ih
    refine ⟨?_, ?_, ?_⟩
    · intro v hv
      cases v with
      | null => simp [jsize, Json.stringify]
      | bool b => cases b <;> simp [jsize, Json.stringify]
      | num m =>
        obtain ⟨c, tl, hct, _⟩ := intToDigits_head m
        simp only [jsize, Json.stringify, hct, List.length_cons]
        omega
      | str s => simp [jsize, Json.stringify, quoteStr]
      | arr l =>
        simp only [jsize, Json.stringify, List.length_cons, List.length_append]
        have h2 := ih2 l (by simp only [jsize] at hv; omega)
        simp
        omega
      | obj l =>
        simp only [jsize, Json.stringify, List.length_cons, List.length_append]
        have h3 := ih3 l (by simp only [jsize] at hv; omega)
        simp
        omega
    · intro l hl
      cases l with
      | nil => simp [jsizeL]
      | cons x t =>
        cases t with
        | nil =>
          simp only [jsizeL, Json.stringifyElems]
          have h1 := ih1 x (by simp only [jsizeL] at hl; omega)
          omega
        | cons y t2 =>
          simp only [jsizeL] at hl ⊢
          have hx1 := jsize_pos x
          have h1 := ih1 x (by omega)
          have h2 := ih2 (.cons y t2) (by simp only [jsizeL]; omega)
          simp only [jsizeL] at h2
          simp only [Json.stringifyElems, List.length_append, List.length_cons]
          omega
    · intro m hm
      cases m with
      | nil => simp [jsizeM]
      | cons k v t =>
        cases t with
        | nil =>
          simp only [jsizeM, Json.stringifyMembers]
          have h1 := ih1 v (by simp only [jsizeM] at hm; omega)
          simp only [List.length_append, List.length_cons]
          omega
        | cons k2 v2 t2 =>
          simp only [jsizeM] at hm ⊢
          have hv1 := jsize_pos v
          have h1 := ih1 v (by omega)
          have h3 := ih3 (.cons k2 v2 t2) (by simp only [jsizeM]; omega)
          simp only [jsizeM] at h3
          simp only [Json.stringifyMembers, List.length_append, List.length_cons]
          omega

/-- Structural round trip of the JSON layer: `JSON.parse` inverts
`JSON.stringify`. -/
theorem jsonParse_stringify (v : Json) : jsonParse (Json.stringify v) = some v := by
  have hb : jsize v ≤ (Json.stringify v).length :=
    (jsize_le_len_aux (jsize v)).1 v (le_refl _)
  have h := (parse_stringify_aux ((Json.stringify v).length + 1)).1 v []
    (by omega) noDigitStart_nil
  rw [List.append_nil] at h
  unfold jsonParse
  rw [h]

/-! ## Embedding and extraction (src/png-metadata.js lines 129-163, 203-230) -/

/-- `createTextChunk` (lines 129-140): tEXt payload is
`keyword | 0x00 | text`. -/
def createTextChunk (keyword text : List Nat) : List Nat :=
  createChunk tEXtBytes (keyword ++ (0 :: text))

/-- `embedMetadataInPNG` (lines 149-163): stringify, UTF-8 encode, base64
encode, build the tEXt chunk and splice it before IEND. -/
def embedMetadataInPNG (pngData keyword : List Nat) (jsonData : Json) :
    Except PngErr (List Nat) :=
  insertChunkBeforeIEND pngData
    (createTextChunk keyword (btoaBytes (Json.stringify jsonData)))

/-- The decode policy of `extractMetadataFromPNG` on a found chunk text:
try base64 first; when base64-decoding throws, parse the raw text
(legacy path).  A JSON parse failure yields the absent marker. -/
def decodeChunkText (text : List Nat) : Option Json :=
  match atobBytes text with
  | some bytes => jsonParse bytes
  | none => jsonParse text

/-- `extractMetadataFromPNG` (lines 203-230): parse the chunk stream, scan
for the first matching tEXt chunk, decode its text. -/
def extractMetadataFromPNG (pngData keyword : List Nat) :
    Except PngErr (Option Json) :=
  match parseChunks pngData with
  | .error e => .error e
  | .ok chunks =>
    .ok (match findTextChunk chunks keyword with
      | none => none
      | some (_, text) => decodeChunkText text)

/-! ## Structured PNG streams

A byte stream is a valid PNG container when it is the 8-byte signature
followed by encoded chunks whose last member is IEND (bytes after the IEND
chunk are ignored by the parser).  `RawChunk` carries the (unvalidated) CRC
bytes verbatim. -/

structure RawChunk where
  ty : List Nat
  data : List Nat
  crc : List Nat
deriving DecidableEq, Repr

def encodeRawChunk (c : RawChunk) : List Nat :=
  u32be c.data.length ++ c.ty ++ c.data ++ c.crc

def encodeRawChunks (cs : List RawChunk) : List Nat := cs.flatMap encodeRawChunk

def WfRawChunk (c : RawChunk) : Prop :=
  c.ty.length = 4 ∧ c.crc.length = 4 ∧ c.data.length < 2 ^ 32

instance (c : RawChunk) : Decidable (WfRawChunk c) := by
  unfold WfRawChunk
  infer_instance

/-- Parsed chunks of an encoded stream, with their cumulative offsets. -/
def chunksOf : Nat → List RawChunk → List Chunk
  | _, [] => []
  | off, c :: rest => ⟨c.ty, c.data, off⟩ :: chunksOf (off + 12 + c.data.length) rest

theorem encodeRawChunk_length (c : RawChunk) (h : WfRawChunk c) :
    (encodeRawChunk c).length = 12 + c.data.length := by
  obtain ⟨h1, h2, _⟩ := h
  simp [encodeRawChunk, u32be, h1, h2]
  omega

theorem encodeRawChunks_length_ge (cs : List RawChunk)
    (h : ∀ c ∈ cs, WfRawChunk c) : cs.length ≤ (encodeRawChunks cs).length := by
  induction cs with
  | nil => simp [encodeRawChunks]
  | cons c t ih =>
    have hc := encodeRawChunk_length c (h c (by simp))
    have ht := ih (fun x hx => h x (by simp [hx]))
    simp only [encodeRawChunks, List.flatMap_cons, List.length_append,
      List.length_cons] at *
    omega

theorem parseLoop_encode (pre : List RawChunk) (iendC : RawChunk) :
    ∀ (png : List Nat) (offset : Nat) (trailing : List Nat) (fuel : Nat),
    (∀ c ∈ pre, WfRawChunk c ∧ c.ty ≠ iendBytes) →
    WfRawChunk iendC → iendC.ty = iendBytes →
    png.drop offset = encodeRawChunks (pre ++ [iendC]) ++ trailing →
    pre.length < fuel →
    parseLoop png fuel offset = .ok (chunksOf offset (pre ++ [iendC])) := by
  induction pre with
  | nil =>
    intro png offset trailing fuel _ hwf hty hdrop hfuel
    obtain ⟨hty4, hcrc4, hlen⟩ := hwf
    rcases fuel with _ | f
    · omega
    · have hdlen : (png.drop offset).length = png.length - offset :=
        List.length_drop offset png
      have henc : encodeRawChunks [iendC] = encodeRawChunk iendC := by
        simp [encodeRawChunks]
      rw [List.nil_append] at hdrop
      rw [henc] at hdrop
      have hELen : (encodeRawChunk iendC).length = 12 + iendC.data.length :=
        encodeRawChunk_length iendC ⟨hty4, hcrc4, hlen⟩
      have hbytes : png.length - offset =
          12 + iendC.data.length + trailing.length := by
        rw [← hdlen, hdrop]
        simp [hELen]
      have hoff : offset < png.length := by omega
      have hoff4 : ¬ png.length < offset + 4 := by omega
      -- the three reads
      have hu32 : (u32be iendC.data.length).length = 4 := u32be_length _
      have henc2 : encodeRawChunk iendC ++ trailing =
          u32be iendC.data.length ++ (iendC.ty ++ (iendC.data ++
            (iendC.crc ++ trailing))) := by
        simp [encodeRawChunk]
      have hread1 : (png.drop offset).take 4 = u32be iendC.data.length := by
        rw [hdrop, henc2, List.take_append_of_le_length (by omega)]
        simp [List.take_of_length_le, hu32]
      have hlenread : readBE32 ((png.drop offset).take 4) = iendC.data.length := by
        rw [hread1]
        exact readBE32_u32be _ hlen
      have hdrop4 : png.drop (offset + 4) =
          iendC.ty ++ (iendC.data ++ (iendC.crc ++ trailing)) := by
        have : png.drop (offset + 4) = (png.drop offset).drop 4 := by
          rw [List.drop_drop]
        rw [this, hdrop, henc2, List.drop_append_of_le_length (by omega)]
        simp [hu32]
      have hread2 : (png.drop (offset + 4)).take 4 = iendC.ty := by
        rw [hdrop4, List.take_append_of_le_length (by omega)]
        simp [List.take_of_length_le, hty4]
      have hdrop8 : png.drop (offset + 8) = iendC.data ++ (iendC.crc ++ trailing) := by
        have h1 : png.drop (offset + 8) = (png.drop (offset + 4)).drop 4 := by
          rw [List.drop_drop]
        rw [h1, hdrop4, List.drop_append_of_le_length (by omega)]
        simp [hty4]
      have hread3 : (png.drop (offset + 8)).take iendC.data.length = iendC.data := by
        rw [hdrop8, List.take_append_of_le_length (le_refl _)]
        simp
      rw [parseLoop.eq_def]
      simp only [if_pos hoff, if_neg hoff4, hlenread, hread2, hread3,
        if_pos hty]
      rfl
  | cons c pre2 ih =>
    intro png offset trailing fuel hpre hwf hty hdrop hfuel
    obtain ⟨⟨hty4, hcrc4, hlen⟩, htyne⟩ := hpre c (by simp)
    rcases fuel with _ | f
    · omega
    · have hdlen : (png.drop offset).length = png.length - offset :=
        List.length_drop offset png
      have henc : encodeRawChunks ((c :: pre2) ++ [iendC]) =
          encodeRawChunk c ++ encodeRawChunks (pre2 ++ [iendC]) := by
        simp [encodeRawChunks]
      rw [henc, List.append_assoc] at hdrop
      have hELen : (encodeRawChunk c).length = 12 + c.data.length :=
        encodeRawChunk_length c ⟨hty4, hcrc4, hlen⟩
      have hbytes : 12 + c.data.length ≤ png.length - offset := by
        rw [← hdlen, hdrop]
        simp [hELen]
      have hoff : offset < png.length := by omega
      have hoff4 : ¬ png.length < offset + 4 := by omega
      have hu32 : (u32be c.data.length).length = 4 := u32be_length _
      have henc2 : encodeRawChunk c ++ (encodeRawChunks (pre2 ++ [iendC]) ++ trailing) =
          u32be c.data.length ++ (c.ty ++ (c.data ++ (c.crc ++
            (encodeRawChunks (pre2 ++ [iendC]) ++ trailing)))) := by
        simp [encodeRawChunk]
      rw [henc2] at hdrop
      have hread1 : (png.drop offset).take 4 = u32be c.data.length := by
        rw [hdrop, List.take_append_of_le_length (by omega)]
        simp [List.take_of_length_le, hu32]
      have hlenread : readBE32 ((png.drop offset).take 4) = c.data.length := by
        rw [hread1]
        exact readBE32_u32be _ hlen
      have hdrop4 : png.drop (offset + 4) =
          c.ty ++ (c.data ++ (c.crc ++ (encodeRawChunks (pre2 ++ [iendC]) ++
            trailing))) := by
        have h1 : png.drop (offset + 4) = (png.drop offset).drop 4 := by
          rw [List.drop_drop]
        rw [h1, hdrop, List.drop_append_of_le_length (by omega)]
        simp [hu32]
      have hread2 : (png.drop (offset + 4)).take 4 = c.ty := by
        rw [hdrop4, List.take_append_of_le_length (by omega)]
        simp [List.take_of_length_le, hty4]
      have hdrop8 : png.drop (offset + 8) =
          c.data ++ (c.crc ++ (encodeRawChunks (pre2 ++ [iendC]) ++ trailing)) := by
        have h1 : png.drop (offset + 8) = (png.drop (offset + 4)).drop 4 := by
          rw [List.drop_drop]
        rw [h1, hdrop4, List.drop_append_of_le_length (by omega)]
        simp [hty4]
      have hread3 : (png.drop (offset + 8)).take c.data.length = c.data := by
        rw [hdrop8, List.take_append_of_le_length (le_refl _)]
        simp
      have hdropNext : png.drop (offset + 4 + 4 + c.data.length + 4) =
          encodeRawChunks (pre2 ++ [iendC]) ++ trailing := by
        have h1 : png.drop (offset + 4 + 4 + c.data.length + 4) =
            (png.drop (offset + 8)).drop (c.data.length + 4) := by
          rw [List.drop_drop,
            show offset + 8 + (c.data.length + 4) =
              offset + 4 + 4 + c.data.length + 4 by omega]
        rw [h1, hdrop8]
        rw [show c.data ++ (c.crc ++ (encodeRawChunks (pre2 ++ [iendC]) ++ trailing)) =
          (c.data ++ c.crc) ++ (encodeRawChunks (pre2 ++ [iendC]) ++ trailing) by simp]
        have h2 : c.data.length + 4 = (c.data ++ c.crc).length := by
          simp [hcrc4]
        rw [h2, List.drop_left]
      have hrec := ih png (offset + 4 + 4 + c.data.length + 4) trailing f
        (fun x hx => hpre x (by simp [hx])) hwf hty hdropNext
        (by simp only [List.length_cons] at hfuel; omega)
      rw [parseLoop.eq_def]
      simp only [if_pos hoff, if_neg hoff4, hlenread, hread2, hread3,
        if_neg htyne, hrec]
      have hoffeq : offset + 4 + 4 + c.data.length + 4 =
          offset + 12 + c.data.length := by omega
      rw [hoffeq]
      rfl

theorem parseChunks_encode (pre : List RawChunk) (iendC : RawChunk) (trailing : List Nat)
    (hpre : ∀ c ∈ pre, WfRawChunk c ∧ c.ty ≠ iendBytes)
    (hwf : WfRawChunk iendC) (hty : iendC.ty = iendBytes) :
    parseChunks (PNG_SIGNATURE ++ (encodeRawChunks (pre ++ [iendC]) ++ trailing)) =
      .ok (chunksOf 8 (pre ++ [iendC])) := by
  have hsig : (PNG_SIGNATURE ++ (encodeRawChunks (pre ++ [iendC]) ++ trailing)).take 8 =
      PNG_SIGNATURE := by
    rw [show (8 : Nat) = PNG_SIGNATURE.length from rfl, List.take_left]
  have hdrop : (PNG_SIGNATURE ++ (encodeRawChunks (pre ++ [iendC]) ++ trailing)).drop 8 =
      encodeRawChunks (pre ++ [iendC]) ++ trailing := by
    rw [show (8 : Nat) = PNG_SIGNATURE.length from rfl, List.drop_left]
  have hwfall : ∀ c ∈ pre ++ [iendC], WfRawChunk c := by
    intro c hc
    rcases List.mem_append.mp hc with h | h
    · exact (hpre c h).1
    · simp at h
      subst h
      exact hwf
  have hgelen := encodeRawChunks_length_ge (pre ++ [iendC]) hwfall
  have hfuel : pre.length <
      (PNG_SIGNATURE ++ (encodeRawChunks (pre ++ [iendC]) ++ trailing)).length + 1 := by
    simp only [List.length_append] at *
    simp only [List.length_append, List.length_cons] at hgelen
    omega
  unfold parseChunks
  rw [if_pos hsig]
  exact parseLoop_encode pre iendC _ 8 trailing _ hpre hwf hty hdrop hfuel

theorem chunksOf_find_iend (pre : List RawChunk) (iendC : RawChunk)
    (hpre : ∀ c ∈ pre, WfRawChunk c ∧ c.ty ≠ iendBytes) (hty : iendC.ty = iendBytes) :
    ∀ off, (chunksOf off (pre ++ [iendC])).find? (fun c => c.ty == iendBytes) =
      some ⟨iendC.ty, iendC.data, off + (encodeRawChunks pre).length⟩ := by
  induction pre with
  | nil =>
    intro off
    simp [chunksOf, List.find?, hty, encodeRawChunks]
  | cons c pre2 ih =>
    intro off
    obtain ⟨hwf, htyne⟩ := hpre c (by simp)
    have hbeq : (c.ty == iendBytes) = false := by
      simp
      exact htyne
    simp only [List.cons_append, chunksOf, List.find?]
    rw [hbeq]
    show List.find? (fun x => x.ty == iendBytes)
        (chunksOf (off + 12 + c.data.length) (pre2 ++ [iendC])) = _
    rw [ih (fun x hx => hpre x (by simp [hx])) (off + 12 + c.data.length)]
    have hlen : (encodeRawChunks (c :: pre2)).length =
        12 + c.data.length + (encodeRawChunks pre2).length := by
      simp only [encodeRawChunks, List.flatMap_cons, List.length_append]
      rw [encodeRawChunk_length c hwf]
    rw [hlen]
    have : off + 12 + c.data.length + (encodeRawChunks pre2).length =
        off + (12 + c.data.length + (encodeRawChunks pre2).length) := by omega
    rw [this]

theorem insertChunkBeforeIEND_encode (pre : List RawChunk) (iendC : RawChunk)
    (trailing newChunk : List Nat)
    (hpre : ∀ c ∈ pre, WfRawChunk c ∧ c.ty ≠ iendBytes)
    (hwf : WfRawChunk iendC) (hty : iendC.ty = iendBytes) :
    insertChunkBeforeIEND
        (PNG_SIGNATURE ++ (encodeRawChunks (pre ++ [iendC]) ++ trailing)) newChunk =
      .ok ((PNG_SIGNATURE ++ encodeRawChunks pre) ++ newChunk ++
        (encodeRawChunk iendC ++ trailing)) := by
  unfold insertChunkBeforeIEND
  rw [parseChunks_encode pre iendC trailing hpre hwf hty]
  simp only
  rw [chunksOf_find_iend pre iendC hpre hty 8]
  simp only
  have hsplit : PNG_SIGNATURE ++ (encodeRawChunks (pre ++ [iendC]) ++ trailing) =
      (PNG_SIGNATURE ++ encodeRawChunks pre) ++ (encodeRawChunk iendC ++ trailing) := by
    simp [encodeRawChunks]
  have hofflen : 8 + (encodeRawChunks pre).length =
      (PNG_SIGNATURE ++ encodeRawChunks pre).length := by
    simp [PNG_SIGNATURE]
    omega
  have htake : (PNG_SIGNATURE ++ (encodeRawChunks (pre ++ [iendC]) ++ trailing)).take
      (8 + (encodeRawChunks pre).length) = PNG_SIGNATURE ++ encodeRawChunks pre := by
    rw [hsplit, hofflen, List.take_left]
  have hdrop : (PNG_SIGNATURE ++ (encodeRawChunks (pre ++ [iendC]) ++ trailing)).drop
      (8 + (encodeRawChunks pre).length) = encodeRawChunk iendC ++ trailing := by
    rw [hsplit, hofflen, List.drop_left]
  rw [htake, hdrop]

/-! ### Extraction helpers -/

theorem findTextChunk_append (l1 l2 : List Chunk) (k : List Nat)
    (h : ∀ c ∈ l1, readTextChunk c k = none) :
    findTextChunk (l1 ++ l2) k = findTextChunk l2 k := by
  induction l1 with
  | nil => rfl
  | cons c t ih =>
    simp only [List.cons_append, findTextChunk, h c (by simp)]
    exact ih (fun x hx => h x (by simp [hx]))

theorem findIdx_first_zero (k : List Nat) (text : List Nat)
    (hk : ∀ b ∈ k, b ≠ 0) :
    (k ++ (0 :: text)).findIdx? (fun b => b == 0) = some k.length := by
  induction k with
  | nil => simp [List.findIdx?_cons]
  | cons b t ih =>
    rw [List.cons_append, List.findIdx?_cons,
      if_neg (by simp; exact hk b (by simp))]
    rw [List.findIdx?_succ, ih (fun x hx => hk x (by simp [hx]))]
    simp

/-- Reading the freshly created tEXt chunk back: the first zero byte is the
keyword separator, so the payload splits into the keyword and the text. -/
theorem readTextChunk_embedded (k text : List Nat) (off : Nat)
    (hk : ∀ b ∈ k, b ≠ 0) :
    readTextChunk ⟨tEXtBytes, k ++ (0 :: text), off⟩ k = some (k, text) := by
  unfold readTextChunk
  rw [if_pos rfl]
  simp only
  rw [findIdx_first_zero k text hk]
  have htake : (k ++ (0 :: text)).take k.length = k := List.take_left k _
  have hdropped : (k ++ (0 :: text)).drop (k.length + 1) = text := by
    rw [show k ++ (0 :: text) = (k ++ [0]) ++ text by simp]
    rw [show k.length + 1 = (k ++ [0]).length by simp]
    exact List.drop_left _ _
  show (if (k ++ (0 :: text)).take k.length = k then
      some ((k ++ (0 :: text)).take k.length, (k ++ (0 :: text)).drop (k.length + 1))
    else none) = some (k, text)
  rw [htake, if_pos rfl, hdropped]

/-- The IEND chunk (or any chunk of another type) is never read as text. -/
theorem readTextChunk_wrong_type (c : Chunk) (k : List Nat) (h : c.ty ≠ tEXtBytes) :
    readTextChunk c k = none := by
  unfold readTextChunk
  rw [if_neg h]

/-! ### Byte bounds on serialized JSON -/

mutual
def validJson : Json → Bool
  | .null => true
  | .bool _ => true
  | .num n => decide (n.natAbs ≤ 2 ^ 53)
  | .str s => s.all (fun b => decide (b < 256))
  | .arr l => validJsonL l
  | .obj l => validJsonO l
def validJsonL : JsonList → Bool
  | .nil => true
  | .cons x t => validJson x && validJsonL t
def validJsonO : JsonObj → Bool
  | .nil => true
  | .cons k v t => k.all (fun b => decide (b < 256)) && validJson v && validJsonO t
end

theorem natToDigits_lt_256 (n : Nat) : ∀ b ∈ natToDigits n, b < 256 := by
  intro b hb
  have := natToDigits_all_digits n b hb
  omega

theorem intToDigits_lt_256 (n : Int) : ∀ b ∈ intToDigits n, b < 256 := by
  intro b hb
  unfold intToDigits at hb
  split at hb
  · rcases List.mem_cons.mp hb with rfl | hb2
    · omega
    · exact natToDigits_lt_256 _ b hb2
  · exact natToDigits_lt_256 _ b hb

theorem hexDigitChar_lt_256 (d : Nat) (hd : d < 16) : hexDigitChar d < 256 := by
  unfold hexDigitChar
  split_ifs <;> omega

theorem escapeByte_lt_256 (b : Nat) (hb : b < 256) : ∀ x ∈ escapeByte b, x < 256 := by
  have hh1 : hexDigitChar (b / 16) < 256 := hexDigitChar_lt_256 _ (by omega)
  have hh2 : hexDigitChar (b % 16) < 256 := hexDigitChar_lt_256 _ (by omega)
  intro x hx
  unfold escapeByte at hx
  split_ifs at hx <;> simp at hx <;>
    first
    | omega
    | (rcases hx with rfl | rfl <;> omega)
    | (rcases hx with rfl | rfl | rfl | rfl | rfl | rfl <;> omega)
    | (rcases hx with rfl | rfl | rfl | rfl | rfl <;> omega)
    | (rcases hx with rfl | rfl | rfl | rfl <;> omega)

theorem quoteStr_lt_256 (s : List Nat) (hs : ∀ b ∈ s, b < 256) :
    ∀ x ∈ quoteStr s, x < 256 := by
  intro x hx
  unfold quoteStr at hx
  rcases List.mem_cons.mp hx with rfl | hx2
  · omega
  · rcases List.mem_append.mp hx2 with h | h
    · obtain ⟨b, hb, hxb⟩ := List.mem_flatMap.mp h
      exact escapeByte_lt_256 b (hs b hb) x hxb
    · simp at h
      omega

theorem stringify_lt_256_aux : ∀ n : Nat,
    (∀ v, jsize v ≤ n → validJson v = true → ∀ b ∈ Json.stringify v, b < 256) ∧
    (∀ l, jsizeL l ≤ n → validJsonL l = true →
      ∀ b ∈ Json.stringifyElems l, b < 256) ∧
    (∀ m, jsizeM m ≤ n → validJsonO m = true →
      ∀ b ∈ Json.stringifyMembers m, b < 256) := by
  intro n
  induction n with
  | zero =>
    refine ⟨?_, ?_, ?_⟩
    · intro v h _
      have := jsize_pos v
      omega
    · intro l h _
      cases l with
      | nil => simp [Json.stringifyElems]
      | cons x t =>
        simp only [jsizeL] at h
        have := jsize_pos x
        omega
    · intro m h _
      cases m with
      | nil => simp [Json.stringifyMembers]
      | cons k v t =>
        simp only [jsizeM] at h
        have := jsize_pos v
        omega
  | succ n ih =>
    obtain ⟨ih1, ih2, ih3⟩ := ih
    refine ⟨?_, ?_, ?_⟩
    · intro v hv hval b hb
      cases v with
      | null =>
        simp [Json.stringify] at hb
        omega
      | bool bb =>
        cases bb <;> simp [Json.stringify] at hb <;> omega
      | num m => exact intToDigits_lt_256 m b hb
      | str s =>
        have hs : ∀ x ∈ s, x < 256 := by simpa [validJson] using hval
        exact quoteStr_lt_256 s hs b hb
      | arr l =>
        simp only [Json.stringify] at hb
        rcases List.mem_cons.mp hb with rfl | hb2
        · omega
        · rcases List.mem_append.mp hb2 with h | h
          · exact ih2 l (by simp only [jsize] at hv; omega)
              (by simpa [validJson] using hval) b h
          · simp at h
            omega
      | obj l =>
        simp only [Json.stringify] at hb
        rcases List.mem_cons.mp hb with rfl | hb2
        · omega
        · rcases List.mem_append.mp hb2 with h | h
          · exact ih3 l (by simp only [jsize] at hv; omega)
              (by simpa [validJson] using hval) b h
          · simp at h
            omega
    · intro l hl hval b hb
      cases l with
      | nil => simp [Json.stringifyElems] at hb
      | cons x t =>
        have hvx : validJson x = true ∧ validJsonL t = true := by
          simpa [validJsonL, Bool.and_eq_true] using hval
        cases t with
        | nil =>
          exact ih1 x (by simp only [jsizeL] at hl; omega) hvx.1 b
            (by simpa [Json.stringifyElems] using hb)
        | cons y t2 =>
          simp only [Json.stringifyElems] at hb
          rcases List.mem_append.mp hb with h | h
          · exact ih1 x (by simp only [jsizeL] at hl; have := jsize_pos x; omega)
              hvx.1 b h
          · rcases List.mem_cons.mp h with rfl | h2
            · omega
            · refine ih2 (.cons y t2) ?_ hvx.2 b h2
              simp only [jsizeL] at hl ⊢
              have := jsize_pos x
              omega
    · intro m hm hval b hb
      cases m with
      | nil => simp [Json.stringifyMembers] at hb
      | cons k v t =>
        have hvk : (∀ x ∈ k, x < 256) ∧ validJson v = true ∧ validJsonO t = true := by
          have h2 : (k.all fun b => decide (b < 256)) = true ∧
              validJson v = true ∧ validJsonO t = true := by
            simpa [validJsonO, Bool.and_eq_true, and_assoc] using hval
          refine ⟨?_, h2.2.1, h2.2.2⟩
          intro x hx
          have := List.all_eq_true.mp h2.1 x hx
          simpa using this
        cases t with
        | nil =>
          simp only [Json.stringifyMembers] at hb
          rcases List.mem_append.mp hb with h | h
          · exact quoteStr_lt_256 k hvk.1 b h
          · rcases List.mem_cons.mp h with rfl | h2
            · omega
            · exact ih1 v (by simp only [jsizeM] at hm; omega) hvk.2.1 b h2
        | cons k2 v2 t2 =>
          simp only [Json.stringifyMembers] at hb
          rcases List.mem_append.mp hb with h | h
          · rcases List.mem_append.mp h with h3 | h3
            · exact quoteStr_lt_256 k hvk.1 b h3
            · rcases List.mem_cons.mp h3 with rfl | h4
              · omega
              · exact ih1 v
                  (by simp only [jsizeM] at hm; have := jsize_pos v; omega)
                  hvk.2.1 b h4
          · rcases List.mem_cons.mp h with rfl | h2
            · omega
            · refine ih3 (.cons k2 v2 t2) ?_ hvk.2.2 b h2
              simp only [jsizeM] at hm ⊢
              have := jsize_pos v
              omega

/-- A valid JSON value serializes to genuine bytes. -/
theorem stringify_lt_256 (v : Json) (hval : validJson v = true) :
    ∀ b ∈ Json.stringify v, b < 256 :=
  (stringify_lt_256_aux (jsize v)).1 v (le_refl _) hval

/-! ### End-to-end embed/extract -/

/-- Base64 output length: 4 characters per 3-byte group, padded. -/
def b64Length (n : Nat) : Nat := 4 * ((n + 2) / 3)

theorem btoaBytes_length (bs : List Nat) :
    (btoaBytes bs).length = b64Length bs.length := by
  induction bs using btoaBytes.induct with
  | case1 => rfl
  | case2 a => simp [btoaBytes, b64Length]
  | case3 a b => simp [btoaBytes, b64Length]
  | case4 a b c t ih =>
    simp only [btoaBytes, List.length_cons, ih, b64Length]
    omega

/-- The raw chunk produced by `createTextChunk`. -/
def textRawChunk (k text : List Nat) : RawChunk :=
  ⟨tEXtBytes, k ++ (0 :: text),
    u32be (crc32 (tEXtBytes ++ (k ++ (0 :: text))))⟩

theorem createTextChunk_eq_encode (k text : List Nat) :
    createTextChunk k text = encodeRawChunk (textRawChunk k text) := rfl

theorem textRawChunk_wf (k text : List Nat)
    (h : k.length + 1 + text.length < 2 ^ 32) : WfRawChunk (textRawChunk k text) := by
  refine ⟨rfl, rfl, ?_⟩
  simp [textRawChunk]
  omega

theorem textRawChunk_not_iend (k text : List Nat) :
    (textRawChunk k text).ty ≠ iendBytes := by
  simp [textRawChunk, tEXtBytes, iendBytes]

theorem chunksOf_append_ex (l1 l2 : List RawChunk) :
    ∀ off, ∃ off2, chunksOf off (l1 ++ l2) = chunksOf off l1 ++ chunksOf off2 l2 := by
  induction l1 with
  | nil =>
    intro off
    exact ⟨off, rfl⟩
  | cons c t ih =>
    intro off
    obtain ⟨off2, h⟩ := ih (off + 12 + c.data.length)
    exact ⟨off2, by simp [chunksOf, h]⟩

theorem readTextChunk_chunksOf_transfer (l : List RawChunk) (k : List Nat)
    (off1 : Nat) (h : ∀ c ∈ chunksOf off1 l, readTextChunk c k = none) :
    ∀ off2, ∀ c ∈ chunksOf off2 l, readTextChunk c k = none := by
  induction l generalizing off1 with
  | nil =>
    intro off2 c hc
    simp [chunksOf] at hc
  | cons x t ih =>
    intro off2 c hc
    simp only [chunksOf, List.mem_cons] at hc
    rcases hc with rfl | hc
    · have h1 := h ⟨x.ty, x.data, off1⟩ (by simp [chunksOf])
      exact h1
    · exact ih (off1 + 12 + x.data.length)
        (fun c2 hc2 => h c2 (by simp [chunksOf, hc2])) _ c hc

theorem findTextChunk_none (cs : List Chunk) (k : List Nat)
    (h : ∀ c ∈ cs, readTextChunk c k = none) : findTextChunk cs k = none := by
  induction cs with
  | nil => rfl
  | cons c t ih =>
    simp only [findTextChunk, h c (by simp)]
    exact ih (fun x hx => h x (by simp [hx]))

/-- Scanning the chunk sequence of the embedded stream finds the fresh tEXt
chunk and returns its text. -/
theorem findTextChunk_embedded (pre : List RawChunk) (iendC : RawChunk)
    (k text : List Nat)
    (hnomatch : ∀ off, ∀ c ∈ chunksOf off pre, readTextChunk c k = none)
    (htyIend : iendC.ty = iendBytes)
    (hk0 : ∀ b ∈ k, b ≠ 0) :
    ∀ off, findTextChunk (chunksOf off ((pre ++ [textRawChunk k text]) ++ [iendC])) k =
      some (k, text) := by
  intro off
  obtain ⟨off2, hsplit⟩ := chunksOf_append_ex pre ([textRawChunk k text] ++ [iendC]) off
  rw [List.append_assoc, hsplit]
  rw [findTextChunk_append _ _ k (hnomatch off)]
  show findTextChunk (⟨tEXtBytes, k ++ (0 :: text), off2⟩ ::
    chunksOf (off2 + 12 + (k ++ (0 :: text)).length) [iendC]) k = some (k, text)
  simp only [findTextChunk]
  rw [readTextChunk_embedded k text off2 hk0]

theorem embed_structured (pre : List RawChunk) (iendC : RawChunk)
    (trailing k : List Nat) (v : Json)
    (hpre : ∀ c ∈ pre, WfRawChunk c ∧ c.ty ≠ iendBytes)
    (hwf : WfRawChunk iendC) (hty : iendC.ty = iendBytes) :
    embedMetadataInPNG (PNG_SIGNATURE ++ (encodeRawChunks (pre ++ [iendC]) ++ trailing))
        k v =
      .ok ((PNG_SIGNATURE ++ encodeRawChunks pre) ++
        createTextChunk k (btoaBytes (Json.stringify v)) ++
        (encodeRawChunk iendC ++ trailing)) := by
  unfold embedMetadataInPNG
  exact insertChunkBeforeIEND_encode pre iendC trailing _ hpre hwf hty

theorem embed_out_structured (pre : List RawChunk) (iendC : RawChunk)
    (trailing k text : List Nat) :
    (PNG_SIGNATURE ++ encodeRawChunks pre) ++ createTextChunk k text ++
      (encodeRawChunk iendC ++ trailing) =
    PNG_SIGNATURE ++
      (encodeRawChunks ((pre ++ [textRawChunk k text]) ++ [iendC]) ++ trailing) := by
  rw [createTextChunk_eq_encode]
  simp [encodeRawChunks]

theorem textRawChunk_pre_wf (pre : List RawChunk) (k text : List Nat)
    (hpre : ∀ c ∈ pre, WfRawChunk c ∧ c.ty ≠ iendBytes)
    (hdata : k.length + 1 + text.length < 2 ^ 32) :
    ∀ c ∈ pre ++ [textRawChunk k text], WfRawChunk c ∧ c.ty ≠ iendBytes := by
  intro c hc
  rcases List.mem_append.mp hc with h | h
  · exact hpre c h
  · simp at h
    subst h
    exact ⟨textRawChunk_wf k text hdata, textRawChunk_not_iend k text⟩

/-! ## Claim theorems: PNG metadata codec -/

/-- C1 (counterexample to the claim as stated): for the valid PNG `p0` that
already carries a tEXt chunk with keyword "k" holding the JSON value 1,
embedding the value 2 under the same keyword and extracting it back yields
the OLD value 1, not 2 — extraction returns whichever matching chunk comes
first in file order, as the source appends rather than replaces. -/
theorem C1_extract_embed_duplicate_keyword :
    (embedMetadataInPNG
        (PNG_SIGNATURE ++
          (encodeRawChunks [⟨tEXtBytes, [107, 0, 77, 81, 61, 61], [0, 0, 0, 0]⟩,
            ⟨iendBytes, [], [174, 66, 96, 130]⟩] ++ []))
        [107] (Json.num 2)).bind
      (fun out => extractMetadataFromPNG out [107]) = .ok (some (Json.num 1)) ∧
    Json.num 1 ≠ Json.num 2 := by
  constructor
  · rfl
  · decide

/-- C1 (amended): the embed/extract round trip holds for every valid PNG
(signature, chunk stream ending in IEND, arbitrary trailing bytes), every
JSON-serializable value and every zero-free keyword whose payload fits a
chunk, PROVIDED the PNG does not already contain a tEXt chunk with that
keyword (the counterexample above forces this proviso):
`extract (embed p k v) k` returns exactly `v`. -/
theorem C1_embed_extract_roundtrip
    (pre : List RawChunk) (iendC : RawChunk) (trailing k : List Nat) (v : Json)
    (p : List Nat)
    (hp : p = PNG_SIGNATURE ++ (encodeRawChunks (pre ++ [iendC]) ++ trailing))
    (hpre : ∀ c ∈ pre, WfRawChunk c ∧ c.ty ≠ iendBytes)
    (hwf : WfRawChunk iendC) (hty : iendC.ty = iendBytes)
    (hk0 : ∀ b ∈ k, b ≠ 0)
    (hval : validJson v = true)
    (hdata : k.length + 1 + (btoaBytes (Json.stringify v)).length < 2 ^ 32)
    (hnomatch : ∀ c ∈ chunksOf 8 (pre ++ [iendC]), readTextChunk c k = none) :
    (embedMetadataInPNG p k v).bind (fun out => extractMetadataFromPNG out k) =
      .ok (some v) := by
  subst hp
  rw [embed_structured pre iendC trailing k v hpre hwf hty]
  show extractMetadataFromPNG
      ((PNG_SIGNATURE ++ encodeRawChunks pre) ++
        createTextChunk k (btoaBytes (Json.stringify v)) ++
        (encodeRawChunk iendC ++ trailing)) k = .ok (some v)
  rw [embed_out_structured]
  unfold extractMetadataFromPNG
  have hpre2 := textRawChunk_pre_wf pre k (btoaBytes (Json.stringify v)) hpre hdata
  rw [parseChunks_encode (pre ++ [textRawChunk k (btoaBytes (Json.stringify v))])
    iendC trailing hpre2 hwf hty]
  simp only
  have hnm1 : ∀ c ∈ chunksOf 8 pre, readTextChunk c k = none := by
    obtain ⟨off2, hs⟩ := chunksOf_append_ex pre [iendC] 8
    intro c hc
    exact hnomatch c (by rw [hs]; exact List.mem_append.mpr (Or.inl hc))
  have hnm : ∀ off, ∀ c ∈ chunksOf off pre, readTextChunk c k = none :=
    readTextChunk_chunksOf_transfer pre k 8 hnm1
  rw [findTextChunk_embedded pre iendC k _ hnm hty hk0 8]
  show Except.ok (match atobBytes (btoaBytes (Json.stringify v)) with
    | some bytes => jsonParse bytes
    | none => jsonParse (btoaBytes (Json.stringify v))) = Except.ok (some v)
  rw [atobBytes_btoaBytes _ (stringify_lt_256 v hval)]
  show Except.ok (jsonParse (Json.stringify v)) = Except.ok (some v)
  rw [jsonParse_stringify]

/-- C1 (witness): the amended round trip at a concrete minimal PNG
(signature + IEND) with keyword "k" and JSON value 7. -/
theorem C1_embed_extract_roundtrip_witness :
    validJson (Json.num 7) = true ∧
    (∀ b ∈ [107], b ≠ 0) ∧
    (embedMetadataInPNG
        (PNG_SIGNATURE ++
          (encodeRawChunks ([] ++ [⟨iendBytes, [], [174, 66, 96, 130]⟩]) ++ []))
        [107] (Json.num 7)).bind
      (fun out => extractMetadataFromPNG out [107]) = .ok (some (Json.num 7)) :=
  ⟨by decide, by decide,
    C1_embed_extract_roundtrip [] ⟨iendBytes, [], [174, 66, 96, 130]⟩ [] [107]
      (Json.num 7) _ rfl (by simp) (by decide) rfl (by decide) (by decide)
      (by decide) (by decide)⟩

/-- C2: embedding is byte-exact splicing.  The output is exactly
`prefix(p, iendOffset) ++ newChunk ++ suffix(p, iendOffset)` — no other byte
of `p` is altered; re-parsing the output yields the original chunk sequence
with exactly one new tEXt chunk immediately before IEND; and the output
length is the input length plus 12 framing bytes plus the payload length
(keyword + 1 null byte + base64 text length). -/
theorem C2_embed_noninterference
    (pre : List RawChunk) (iendC : RawChunk) (trailing k : List Nat) (v : Json)
    (p out : List Nat) (iendOff : Nat)
    (hp : p = PNG_SIGNATURE ++ (encodeRawChunks (pre ++ [iendC]) ++ trailing))
    (hoff : iendOff = 8 + (encodeRawChunks pre).length)
    (hpre : ∀ c ∈ pre, WfRawChunk c ∧ c.ty ≠ iendBytes)
    (hwf : WfRawChunk iendC) (hty : iendC.ty = iendBytes)
    (hdata : k.length + 1 + (btoaBytes (Json.stringify v)).length < 2 ^ 32)
    (hout : embedMetadataInPNG p k v = .ok out) :
    out = p.take iendOff ++ createTextChunk k (btoaBytes (Json.stringify v)) ++
      p.drop iendOff ∧
    parseChunks p = .ok (chunksOf 8 (pre ++ [iendC])) ∧
    parseChunks out =
      .ok (chunksOf 8 ((pre ++ [textRawChunk k (btoaBytes (Json.stringify v))]) ++
        [iendC])) ∧
    out.length = p.length + 12 +
      (k.length + 1 + b64Length (Json.stringify v).length) := by
  subst hp hoff
  rw [embed_structured pre iendC trailing k v hpre hwf hty] at hout
  have hout2 : out = (PNG_SIGNATURE ++ encodeRawChunks pre) ++
      createTextChunk k (btoaBytes (Json.stringify v)) ++
      (encodeRawChunk iendC ++ trailing) := by
    cases hout
    rfl
  subst hout2
  have hsplit : PNG_SIGNATURE ++ (encodeRawChunks (pre ++ [iendC]) ++ trailing) =
      (PNG_SIGNATURE ++ encodeRawChunks pre) ++ (encodeRawChunk iendC ++ trailing) := by
    simp [encodeRawChunks]
  have hofflen : 8 + (encodeRawChunks pre).length =
      (PNG_SIGNATURE ++ encodeRawChunks pre).length := by
    simp [PNG_SIGNATURE]
    omega
  refine ⟨?_, ?_, ?_, ?_⟩
  · rw [hsplit, hofflen, List.take_left, List.drop_left]
  · exact parseChunks_encode pre iendC trailing hpre hwf hty
  · rw [embed_out_structured]
    exact parseChunks_encode _ iendC trailing
      (textRawChunk_pre_wf pre k _ hpre hdata) hwf hty
  · have hnew : (createTextChunk k (btoaBytes (Json.stringify v))).length =
        12 + (k.length + 1 + b64Length (Json.stringify v).length) := by
      rw [createTextChunk_eq_encode,
        encodeRawChunk_length _ (textRawChunk_wf k _ hdata)]
      simp [textRawChunk, btoaBytes_length]
      omega
    rw [hsplit]
    simp only [List.length_append, hnew]
    omega

/-- C2 (witness): the splice equation and byte accounting at a concrete PNG
with one IHDR-like chunk before IEND and two trailing bytes. -/
theorem C2_embed_noninterference_witness :
    embedMetadataInPNG
        (PNG_SIGNATURE ++
          (encodeRawChunks ([RawChunk.mk [73, 72, 68, 82] [0, 0, 0, 1] [1, 2, 3, 4]] ++
            [RawChunk.mk iendBytes [] [174, 66, 96, 130]]) ++ [9, 9])) [107] (Json.num 7) =
      .ok ((PNG_SIGNATURE ++
          (encodeRawChunks ([RawChunk.mk [73, 72, 68, 82] [0, 0, 0, 1] [1, 2, 3, 4]] ++
            [RawChunk.mk iendBytes [] [174, 66, 96, 130]]) ++ [9, 9])).take 24 ++
        createTextChunk [107] (btoaBytes (Json.stringify (Json.num 7))) ++
        (PNG_SIGNATURE ++
          (encodeRawChunks ([RawChunk.mk [73, 72, 68, 82] [0, 0, 0, 1] [1, 2, 3, 4]] ++
            [RawChunk.mk iendBytes [] [174, 66, 96, 130]]) ++ [9, 9])).drop 24) ∧
    ((PNG_SIGNATURE ++
          (encodeRawChunks ([RawChunk.mk [73, 72, 68, 82] [0, 0, 0, 1] [1, 2, 3, 4]] ++
            [RawChunk.mk iendBytes [] [174, 66, 96, 130]]) ++ [9, 9])).take 24 ++
        createTextChunk [107] (btoaBytes (Json.stringify (Json.num 7))) ++
        (PNG_SIGNATURE ++
          (encodeRawChunks ([RawChunk.mk [73, 72, 68, 82] [0, 0, 0, 1] [1, 2, 3, 4]] ++
            [RawChunk.mk iendBytes [] [174, 66, 96, 130]]) ++ [9, 9])).drop 24).length =
      (PNG_SIGNATURE ++
          (encodeRawChunks ([RawChunk.mk [73, 72, 68, 82] [0, 0, 0, 1] [1, 2, 3, 4]] ++
            [RawChunk.mk iendBytes [] [174, 66, 96, 130]]) ++ [9, 9])).length + 12 +
        (1 + 1 + b64Length (Json.stringify (Json.num 7)).length) := by
  have hout : embedMetadataInPNG
      (PNG_SIGNATURE ++
        (encodeRawChunks ([RawChunk.mk [73, 72, 68, 82] [0, 0, 0, 1] [1, 2, 3, 4]] ++
          [RawChunk.mk iendBytes [] [174, 66, 96, 130]]) ++ [9, 9])) [107] (Json.num 7) =
      .ok ((PNG_SIGNATURE ++
          (encodeRawChunks ([RawChunk.mk [73, 72, 68, 82] [0, 0, 0, 1] [1, 2, 3, 4]] ++
            [RawChunk.mk iendBytes [] [174, 66, 96, 130]]) ++ [9, 9])).take 24 ++
        createTextChunk [107] (btoaBytes (Json.stringify (Json.num 7))) ++
        (PNG_SIGNATURE ++
          (encodeRawChunks ([RawChunk.mk [73, 72, 68, 82] [0, 0, 0, 1] [1, 2, 3, 4]] ++
            [RawChunk.mk iendBytes [] [174, 66, 96, 130]]) ++ [9, 9])).drop 24) := by rfl
  have h := C2_embed_noninterference
    [RawChunk.mk [73, 72, 68, 82] [0, 0, 0, 1] [1, 2, 3, 4]]
    (RawChunk.mk iendBytes [] [174, 66, 96, 130]) [9, 9] [107] (Json.num 7) _ _ 24
    rfl (by decide) (by decide) (by decide) rfl (by decide) hout
  exact ⟨hout, h.2.2.2⟩

/-! ## C6: failure classification of the codec -/

/-- The chunk-walking loop can only fail with a `RangeError` (from
`DataView.getUint32` when fewer than 4 bytes remain): it never reports a
bad signature or a missing IEND itself. -/
theorem parseLoop_error_eq (png : List Nat) :
    ∀ fuel offset e, parseLoop png fuel offset = .error e →
      e = PngErr.rangeError := by
  intro fuel
  induction fuel with
  | zero =>
    intro offset e h
    rw [parseLoop.eq_def] at h
    cases h
  | succ n ih =>
    intro offset e h
    rw [parseLoop.eq_def] at h
    by_cases h1 : offset < png.length
    · by_cases h2 : png.length < offset + 4
      · simp only [if_pos h1, if_pos h2] at h
        cases h
        rfl
      · by_cases h3 : (png.drop (offset + 4)).take 4 = iendBytes
        · simp only [if_pos h1, if_neg h2, if_pos h3] at h
          cases h
        · simp only [if_pos h1, if_neg h2, if_neg h3] at h
          cases hm : parseLoop png n
              (offset + 4 + 4 + readBE32 ((png.drop offset).take 4) + 4) with
          | ok rest => rw [hm] at h; cases h
          | error e2 => rw [hm] at h; cases h; exact ih _ _ hm
    · simp only [if_neg h1] at h
      cases h

/-- `insertChunkBeforeIEND` after a successful parse: the outcome is decided
by the IEND lookup. -/
theorem insertChunkBeforeIEND_of_ok (png newChunk : List Nat) (cs : List Chunk)
    (hok : parseChunks png = .ok cs) :
    insertChunkBeforeIEND png newChunk =
      (match cs.find? (fun c => c.ty == iendBytes) with
        | none => .error PngErr.missingIEND
        | some iendChunk =>
          .ok (png.take iendChunk.offset ++ newChunk ++
            png.drop iendChunk.offset)) := by
  rw [insertChunkBeforeIEND.eq_def, hok]

/-- `insertChunkBeforeIEND` propagates parse errors unchanged. -/
theorem insertChunkBeforeIEND_of_error (png newChunk : List Nat) (e : PngErr)
    (he : parseChunks png = .error e) :
    insertChunkBeforeIEND png newChunk = .error e := by
  rw [insertChunkBeforeIEND.eq_def, he]

/-- C6: classification of the codec's failure modes.  A bad-signature error
occurs exactly when the first 8 bytes differ from the PNG magic; given a
successful parse, the missing-IEND error of insertion occurs exactly when no
IEND chunk was found; and insertion deterministically yields either a result
or one of the THREE errors bad-signature, range-error, missing-IEND — the
range error (thrown by `DataView.getUint32` on a truncated length field) is a
third failure mode beyond the two the specification names. -/
theorem C6_failure_classification (png newChunk : List Nat) :
    (parseChunks png = .error PngErr.badSignature ↔ png.take 8 ≠ PNG_SIGNATURE) ∧
    (∀ cs, parseChunks png = .ok cs →
      (insertChunkBeforeIEND png newChunk = .error PngErr.missingIEND ↔
        cs.find? (fun c => c.ty == iendBytes) = none)) ∧
    (insertChunkBeforeIEND png newChunk = .error PngErr.badSignature ↔
      png.take 8 ≠ PNG_SIGNATURE) ∧
    ((∃ out, insertChunkBeforeIEND png newChunk = .ok out) ∨
      insertChunkBeforeIEND png newChunk = .error PngErr.badSignature ∨
      insertChunkBeforeIEND png newChunk = .error PngErr.rangeError ∨
      insertChunkBeforeIEND png newChunk = .error PngErr.missingIEND) := by
  refine ⟨?_, ?_, ?_, ?_⟩
  · by_cases hsig : png.take 8 = PNG_SIGNATURE
    · constructor
      · intro h
        rw [parseChunks, if_pos hsig] at h
        have he := parseLoop_error_eq png (png.length + 1) 8 _ h
        cases he
      · intro h
        exact absurd hsig h
    · constructor
      · intro _
        exact hsig
      · intro _
        rw [parseChunks, if_neg hsig]
  · intro cs hok
    rw [insertChunkBeforeIEND_of_ok png newChunk cs hok]
    cases hf : cs.find? (fun c => c.ty == iendBytes) with
    | none => simp
    | some c => simp
  · by_cases hsig : png.take 8 = PNG_SIGNATURE
    · constructor
      · intro h
        cases hp : parseChunks png with
        | error e =>
          rw [insertChunkBeforeIEND_of_error png newChunk e hp] at h
          cases h
          rw [parseChunks, if_pos hsig] at hp
          have he := parseLoop_error_eq png (png.length + 1) 8 _ hp
          cases he
        | ok cs =>
          rw [insertChunkBeforeIEND_of_ok png newChunk cs hp] at h
          cases hf : cs.find? (fun c => c.ty == iendBytes) with
          | none => rw [hf] at h; cases h
          | some c => rw [hf] at h; cases h
      · intro h
        exact absurd hsig h
    · constructor
      · intro _
        exact hsig
      · intro _
        have hperr : parseChunks png = .error PngErr.badSignature := by
          rw [parseChunks, if_neg hsig]
        exact insertChunkBeforeIEND_of_error png newChunk _ hperr
  · cases h : insertChunkBeforeIEND png newChunk with
    | ok out => exact Or.inl ⟨out, rfl⟩
    | error e => cases e <;> simp

/-- C6 (counterexample): a truncated stream with an intact signature makes
the parser fail with a range error — a failure mode that is neither the
bad-signature nor the missing-IEND error, refuting the claim that no other
failure mode exists. -/
theorem C6_third_failure_mode_counterexample :
    (PNG_SIGNATURE ++ [0]).take 8 = PNG_SIGNATURE ∧
    parseChunks (PNG_SIGNATURE ++ [0]) = .error PngErr.rangeError ∧
    insertChunkBeforeIEND (PNG_SIGNATURE ++ [0]) [] = .error PngErr.rangeError ∧
    PngErr.rangeError ≠ PngErr.badSignature ∧
    PngErr.rangeError ≠ PngErr.missingIEND :=
  ⟨by decide, by rfl, by rfl, by decide, by decide⟩

/-- C6 (witness): the classification applied to a concrete well-formed PNG,
discharging the successful-parse hypothesis of the missing-IEND equivalence. -/
theorem C6_failure_classification_witness :
    parseChunks (PNG_SIGNATURE ++
        encodeRawChunk (RawChunk.mk iendBytes [] [174, 66, 96, 130])) =
      .ok [Chunk.mk iendBytes [] 8] ∧
    (insertChunkBeforeIEND (PNG_SIGNATURE ++
        encodeRawChunk (RawChunk.mk iendBytes [] [174, 66, 96, 130])) [5] =
        .error PngErr.missingIEND ↔
      ([Chunk.mk iendBytes [] 8]).find? (fun c => c.ty == iendBytes) = none) :=
  ⟨by rfl,
    (C6_failure_classification
      (PNG_SIGNATURE ++ encodeRawChunk (RawChunk.mk iendBytes [] [174, 66, 96, 130]))
      [5]).2.1 [Chunk.mk iendBytes [] 8] (by rfl)⟩

/-! ## C7: chunk construction and the CRC32 algorithm -/

/-- C7: `createChunk` lays the chunk out as
`length(4,BE) | type(4) | data | crc32(type‖data)(4,BE)`, its total length is
`12 + length(data)`, the 4-byte big-endian length field faithfully encodes
`length(data)`, and the table-driven `crc32` of the source agrees with the
bit-at-a-time reflected-polynomial-0xEDB88320 reference (initial and final
XOR 0xFFFFFFFF). -/
theorem C7_createChunk_layout (ty data : List Nat)
    (hty : ty.length = 4) (hlen : data.length < 2 ^ 32)
    (hbytes : ∀ b ∈ ty ++ data, b < 256) :
    createChunk ty data =
      u32be data.length ++ ty ++ data ++ u32be (crc32 (ty ++ data)) ∧
    (createChunk ty data).length = 12 + data.length ∧
    readBE32 (u32be data.length) = data.length ∧
    crc32 (ty ++ data) = crc32Spec (ty ++ data) := by
  refine ⟨rfl, ?_, readBE32_u32be data.length hlen, crc32_eq_crc32Spec _ hbytes⟩
  rw [createChunk]
  simp only [List.length_append, u32be_length, hty]
  omega

/-- C7 (witness): the layout, length and CRC agreement at the tEXt type tag
and a 3-byte payload. -/
theorem C7_createChunk_layout_witness :
    createChunk tEXtBytes [107, 0, 55] =
      u32be 3 ++ tEXtBytes ++ [107, 0, 55] ++
        u32be (crc32 (tEXtBytes ++ [107, 0, 55])) ∧
    (createChunk tEXtBytes [107, 0, 55]).length = 12 + 3 ∧
    readBE32 (u32be 3) = 3 ∧
    crc32 (tEXtBytes ++ [107, 0, 55]) = crc32Spec (tEXtBytes ++ [107, 0, 55]) :=
  C7_createChunk_layout tEXtBytes [107, 0, 55] (by decide) (by decide) (by decide)

/-! ## C8: decode fallback policy of extraction -/

/-- C8: the actual decode policy on a found chunk text.  Base64 decoding is
attempted first; the raw text is parsed directly ONLY when base64 decoding
throws; when base64 decoding succeeds, the decoded bytes are parsed and the
raw text is never consulted; the absent marker is returned exactly when the
single attempted decode path fails to parse. -/
theorem C8_decode_policy (p k : List Nat) (cs : List Chunk) (kw text : List Nat)
    (hp : parseChunks p = .ok cs)
    (hfind : findTextChunk cs k = some (kw, text)) :
    extractMetadataFromPNG p k = .ok (decodeChunkText text) ∧
    (atobBytes text = none → extractMetadataFromPNG p k = .ok (jsonParse text)) ∧
    (∀ bytes, atobBytes text = some bytes →
      extractMetadataFromPNG p k = .ok (jsonParse bytes)) ∧
    (extractMetadataFromPNG p k = .ok none ↔ decodeChunkText text = none) := by
  have hx : extractMetadataFromPNG p k = .ok (decodeChunkText text) := by
    rw [extractMetadataFromPNG.eq_def, hp]
    show Except.ok (match findTextChunk cs k with
      | none => none
      | some (_, text) => decodeChunkText text) = _
    rw [hfind]
  refine ⟨hx, ?_, ?_, ?_⟩
  · intro hatob
    have hd : decodeChunkText text = jsonParse text := by
      rw [decodeChunkText.eq_def, hatob]
    rw [hx, hd]
  · intro bytes hatob
    have hd : decodeChunkText text = jsonParse bytes := by
      rw [decodeChunkText.eq_def, hatob]
    rw [hx, hd]
  · rw [hx]
    simp

/-- C8 (counterexample): the tEXt text "1234" is valid base64, so the code
decodes it and fails to parse the decoded bytes, returning the absent marker
— even though the raw text itself parses as the JSON number 1234.  The raw
text is NOT tried whenever base64 decoding merely succeeds, refuting "returns
absent only when JSON parsing fails after both decode attempts". -/
theorem C8_decode_fallback_counterexample :
    extractMetadataFromPNG
        (PNG_SIGNATURE ++ encodeRawChunks
          [textRawChunk [107] [49, 50, 51, 52],
           RawChunk.mk iendBytes [] [174, 66, 96, 130]]) [107] = .ok none ∧
    jsonParse [49, 50, 51, 52] = some (Json.num 1234) ∧
    (atobBytes [49, 50, 51, 52]).isSome = true :=
  ⟨by rfl, by rfl, by rfl⟩

/-- C8 (witness): a legacy chunk holding the raw JSON text `\x7b\x7d` — not
valid base64 — is recovered through the fallback path. -/
theorem C8_decode_policy_witness :
    atobBytes [123, 125] = none ∧
    extractMetadataFromPNG
        (PNG_SIGNATURE ++ encodeRawChunks
          [textRawChunk [107] [123, 125],
           RawChunk.mk iendBytes [] [174, 66, 96, 130]]) [107] =
      .ok (jsonParse [123, 125]) ∧
    jsonParse [123, 125] = some (Json.obj JsonObj.nil) :=
  ⟨by rfl,
    (C8_decode_policy
      (PNG_SIGNATURE ++ encodeRawChunks
        [textRawChunk [107] [123, 125],
         RawChunk.mk iendBytes [] [174, 66, 96, 130]]) [107]
      [Chunk.mk tEXtBytes [107, 0, 123, 125] 8, Chunk.mk iendBytes [] 24]
      [107] [123, 125] (by rfl) (by rfl)).2.1 (by rfl),
    by rfl⟩

/-! ## C9: tagged-text reading and the absence case -/

/-- C9: `readTextChunk` returns `none` for every chunk whose type is not
tEXt; on a tEXt chunk with no zero byte it returns `none`; on a tEXt chunk
whose first zero byte is at index `i` it splits the payload into
`(storedKeyword, text) = (take i, drop (i+1))` and yields the pair exactly
when the stored keyword equals the expected one; consequently extraction
returns the absent marker for every PNG whose chunks all fail
`readTextChunk`. -/
theorem C9_readTextChunk_behavior (c : Chunk) (k p : List Nat) (cs : List Chunk)
    (hp : parseChunks p = .ok cs)
    (hnone : ∀ ch ∈ cs, readTextChunk ch k = none) :
    (c.ty ≠ tEXtBytes → readTextChunk c k = none) ∧
    (c.ty = tEXtBytes → c.data.findIdx? (fun b => b == 0) = none →
      readTextChunk c k = none) ∧
    (∀ i, c.ty = tEXtBytes → c.data.findIdx? (fun b => b == 0) = some i →
      readTextChunk c k =
        (if c.data.take i = k then some (c.data.take i, c.data.drop (i + 1))
          else none)) ∧
    extractMetadataFromPNG p k = .ok none := by
  refine ⟨readTextChunk_wrong_type c k, ?_, ?_, ?_⟩
  · intro h1 h2
    rw [readTextChunk, if_pos h1, h2]
  · intro i h1 h3
    rw [readTextChunk, if_pos h1, h3]
  · rw [extractMetadataFromPNG.eq_def, hp]
    show Except.ok (match findTextChunk cs k with
      | none => none
      | some (_, text) => decodeChunkText text) = _
    rw [findTextChunk_none cs k hnone]

/-- C9 (witness): a PNG whose only tEXt chunk stores the keyword `x` is
absent under the expected keyword `k`: the split is returned but rejected by
the keyword comparison, and extraction reports the absent marker. -/
theorem C9_readTextChunk_behavior_witness :
    readTextChunk (Chunk.mk tEXtBytes [120, 0, 49] 8) [107] =
      (if ([120, 0, 49] : List Nat).take 1 = [107] then
        some (([120, 0, 49] : List Nat).take 1, ([120, 0, 49] : List Nat).drop 2)
        else none) ∧
    extractMetadataFromPNG
        (PNG_SIGNATURE ++ encodeRawChunks
          [textRawChunk [120] [49],
           RawChunk.mk iendBytes [] [174, 66, 96, 130]]) [107] = .ok none := by
  have h := C9_readTextChunk_behavior (Chunk.mk tEXtBytes [120, 0, 49] 8) [107]
    (PNG_SIGNATURE ++ encodeRawChunks
      [textRawChunk [120] [49],
       RawChunk.mk iendBytes [] [174, 66, 96, 130]])
    [Chunk.mk tEXtBytes [120, 0, 49] 8, Chunk.mk iendBytes [] 23]
    (by rfl) (by decide)
  exact ⟨h.2.2.1 1 rfl (by rfl), h.2.2.2⟩

/-! ## Export manager (src/export-manager.js)

JS strings are modelled as their code-unit byte lists, as in the PNG module.
The ambient clock `Date.now()` is threaded as a `now : Nat` parameter, and
the network is a deterministic function `fetch : Character → FetchOutcome`
(per-job outcome: a blob, a non-ok HTTP response, or a thrown error).
`loadJSZip`, `zip.file`, `zip.generateAsync`, `downloadBlob` and the toastr
calls are effects that do not influence the accounting and are not modelled.
The nondeterministic completion order of the in-flight promise set at each
`await Promise.race` is resolved by a schedule `sched : Nat → Nat`: at the
`step`-th await, the job at position `sched step % size` settles (the
browser's event loop settles exactly one task per await). -/

structure Character where
  id : Nat
  name : List Nat
  avatar : List Nat
deriving DecidableEq, Repr

inductive FetchOutcome where
  | ok (blob : List Nat)
  | httpError (status : Nat) (statusText : List Nat)
  | thrown (msg : List Nat)
deriving DecidableEq, Repr

structure ExportResult where
  success : Bool
  filename : Option (List Nat)
  blob : Option (List Nat)
  error : Option (List Nat)
deriving DecidableEq, Repr

def MAX_CONCURRENT_EXPORTS : Nat := 5

/-- One byte-level component split, as `String.prototype.split` on a single
separator character. -/
def splitOnByte (sep : Nat) : List Nat → List (List Nat)
  | [] => [[]]
  | b :: rest =>
    match splitOnByte sep rest with
    | [] => [[]]
    | g :: gs => if b = sep then [] :: g :: gs else (b :: g) :: gs

/-- `filename.replace(/\.[^.]+$/, '')`: drop the final dot-extension when the
name ends in a dot followed by at least one non-dot character. -/
def stripExt (filename : List Nat) : List Nat :=
  match filename.reverse.findIdx? (fun b => b == 46) with
  | none => filename
  | some i => if i = 0 then filename else filename.take (filename.length - i - 1)

/-- `replace(/[^a-zA-Z0-9_-]/g, '_')` on one byte. -/
def sanitizeByte (b : Nat) : Nat :=
  if (97 ≤ b ∧ b ≤ 122) ∨ (65 ≤ b ∧ b ≤ 90) ∨ (48 ≤ b ∧ b ≤ 57) ∨ b = 95 ∨ b = 45
  then b else 95

/-- `getSafeFilename` (lines 220-235): last path component, extension
stripped, sanitized, new extension appended; a falsy avatar path yields
`character_<Date.now()>.<ext>`. -/
def getSafeFilename (now : Nat) (avatarPath newExtension : List Nat) : List Nat :=
  if avatarPath = [] then
    ([99, 104, 97, 114, 97, 99, 116, 101, 114, 95] ++ natToDigits now) ++
      (46 :: newExtension)
  else
    ((stripExt ((splitOnByte 92
        ((splitOnByte 47 avatarPath).getLastD [])).getLastD [])).map sanitizeByte) ++
      (46 :: newExtension)

/-- `HTTP ${status}: ${statusText}`. -/
def httpErrMsg (status : Nat) (statusText : List Nat) : List Nat :=
  [72, 84, 84, 80, 32] ++ natToDigits status ++ [58, 32] ++ statusText

/-- `exportSingleCharacterToBlob` (lines 304-326): the whole fetch/transform
phase sits in one try/catch; a non-ok response throws, and every throw is
converted at this boundary into `{success: false, error}`. -/
def exportSingleCharacterToBlob (fetch : Character → FetchOutcome) (now : Nat)
    (character : Character) (format : List Nat) : ExportResult :=
  match fetch character with
  | .ok blob =>
    ExportResult.mk true (some (getSafeFilename now character.avatar format))
      (some blob) none
  | .httpError status statusText =>
    ExportResult.mk false none none (some (httpErrMsg status statusText))
  | .thrown msg => ExportResult.mk false none none (some msg)

/-- The `{...result, character}` object each settled promise contributes. -/
structure BatchItem where
  res : ExportResult
  character : Character
deriving DecidableEq, Repr

def batchJob (fetch : Character → FetchOutcome) (now : Nat) (format : List Nat)
    (c : Character) : BatchItem :=
  BatchItem.mk (exportSingleCharacterToBlob fetch now c format) c

/-- The inner fill loop of `batchExportCharacters` (lines 340-348): start
queued jobs until the in-progress set holds `MAX_CONCURRENT_EXPORTS`
promises or the queue is empty. -/
def fillUp (fetch : Character → FetchOutcome) (now : Nat) (format : List Nat) :
    List Character → List BatchItem → List Character × List BatchItem
  | [], inProgress => ([], inProgress)
  | c :: rest, inProgress =>
    if inProgress.length < MAX_CONCURRENT_EXPORTS then
      fillUp fetch now format rest (inProgress ++ [batchJob fetch now format c])
    else (c :: rest, inProgress)

def defaultBatchItem : BatchItem :=
  BatchItem.mk (ExportResult.mk false none none none) (Character.mk 0 [] [])

/-- The outer while loop of `batchExportCharacters` (lines 339-356): fill,
then `await Promise.race(inProgress)` settles the scheduled in-flight job,
whose `.then` removes it from the set and whose result is pushed.  Each
iteration settles exactly one job, so `characters.length + 1` rounds of fuel
always suffice. -/
def batchLoop (fetch : Character → FetchOutcome) (now : Nat) (format : List Nat)
    (sched : Nat → Nat) :
    Nat → List Character → List BatchItem → Nat → List BatchItem → List BatchItem
  | 0, _, _, _, results => results
  | fuel + 1, queue, inProgress, step, results =>
    if queue = [] ∧ inProgress = [] then results
    else
      let q2 := (fillUp fetch now format queue inProgress).1
      let f2 := (fillUp fetch now format queue inProgress).2
      if f2.length = 0 then results
      else
        batchLoop fetch now format sched fuel q2
          (f2.eraseIdx (sched step % f2.length)) (step + 1)
          (results ++ [f2.getD (sched step % f2.length) defaultBatchItem])

def batchExportCharacters (fetch : Character → FetchOutcome) (now : Nat)
    (format : List Nat) (sched : Nat → Nat) (characters : List Character) :
    List BatchItem :=
  batchLoop fetch now format sched (characters.length + 1) characters [] 0 []

/-- The size of the in-progress set at each suspension point
(`await Promise.race`), along the same control flow as `batchLoop`. -/
def batchTrace (fetch : Character → FetchOutcome) (now : Nat) (format : List Nat)
    (sched : Nat → Nat) :
    Nat → List Character → List BatchItem → Nat → List Nat
  | 0, _, _, _ => []
  | fuel + 1, queue, inProgress, step =>
    if queue = [] ∧ inProgress = [] then []
    else
      let q2 := (fillUp fetch now format queue inProgress).1
      let f2 := (fillUp fetch now format queue inProgress).2
      if f2.length = 0 then []
      else
        f2.length :: batchTrace fetch now format sched fuel q2
          (f2.eraseIdx (sched step % f2.length)) (step + 1)

/-- The ZIP tally condition of lines 419-420:
`result.success && result.blob && result.filename`. -/
def countsAsExported (b : BatchItem) : Bool :=
  b.res.success && b.res.blob.isSome &&
    (match b.res.filename with
      | none => false
      | some f => !f.isEmpty)

def unknownErrorMsg : List Nat :=
  [85, 110, 107, 110, 111, 119, 110, 32, 101, 114, 114, 111, 114]

/-- `${result.character.name}: ${result.error || 'Unknown error'}`. -/
def errMsg (b : BatchItem) : List Nat :=
  b.character.name ++ [58, 32] ++
    (match b.res.error with
      | none => unknownErrorMsg
      | some m => if m.isEmpty then unknownErrorMsg else m)

/-- The `for (const result of results)` tally loop of lines 418-429. -/
def tallyAux : List BatchItem → Nat → Nat → List (List Nat) →
    Nat × Nat × List (List Nat)
  | [], exported, failed, errors => (exported, failed, errors)
  | b :: rest, exported, failed, errors =>
    if countsAsExported b then tallyAux rest (exported + 1) failed errors
    else tallyAux rest exported (failed + 1) (errors ++ [errMsg b])

structure ZipReport where
  success : Bool
  exported : Nat
  failed : Nat
  errors : Option (List (List Nat))
deriving DecidableEq, Repr

def noValidMsg : List Nat :=
  [78, 111, 32, 118, 97, 108, 105, 100, 32, 99, 104, 97, 114, 97, 99, 116,
   101, 114, 115, 32, 102, 111, 117, 110, 100, 32, 116, 111, 32, 101, 120,
   112, 111, 114, 116]

def noneExportedMsg : List Nat :=
  [78, 111, 32, 99, 104, 97, 114, 97, 99, 116, 101, 114, 115, 32, 119, 101,
   114, 101, 32, 101, 120, 112, 111, 114, 116, 101, 100, 32, 115, 117, 99,
   99, 101, 115, 115, 102, 117, 108, 108, 121]

/-- `exportCharactersAsZip` (lines 384-470): resolve the requested IDs
against the character list dropping unresolvable ones, throw when none
remain, batch-export, tally, throw when nothing was exported; both throws
land in the catch clause which reports
`{success: false, exported: 0, failed: characterIds.length, errors: [msg]}`;
otherwise report success with the failure reasons attached when any job
failed. -/
def exportCharactersAsZip (fetch : Character → FetchOutcome) (now : Nat)
    (format : List Nat) (sched : Nat → Nat) (allCharacters : List Character)
    (characterIds : List Nat) : ZipReport :=
  let charactersToExport := characterIds.filterMap
    (fun i => allCharacters.find? (fun c => c.id == i))
  if charactersToExport.length = 0 then
    ZipReport.mk false 0 characterIds.length (some [noValidMsg])
  else
    let results := batchExportCharacters fetch now format sched charactersToExport
    let exported := (tallyAux results 0 0 []).1
    let failed := (tallyAux results 0 0 []).2.1
    let errors := (tallyAux results 0 0 []).2.2
    if exported = 0 then
      ZipReport.mk false 0 characterIds.length (some [noneExportedMsg])
    else
      ZipReport.mk true exported failed (if failed > 0 then some errors else none)

/-! ### Orchestrator lemmas -/

/-- The fill loop starts some prefix of the queue: it returns the untouched
queue suffix together with the in-progress set extended by the started jobs,
and stops short of the queue only when the set is full. -/
theorem fillUp_spec (fetch : Character → FetchOutcome) (now : Nat)
    (format : List Nat) :
    ∀ (q : List Character) (f : List BatchItem),
    ∃ t q2, fillUp fetch now format q f =
        (q2, f ++ t.map (batchJob fetch now format)) ∧ q = t ++ q2 ∧
      (q2 ≠ [] → MAX_CONCURRENT_EXPORTS ≤
        (f ++ t.map (batchJob fetch now format)).length) := by
  intro q
  induction q with
  | nil =>
    intro f
    exact ⟨[], [], by simp [fillUp], by simp, fun h => absurd rfl h⟩
  | cons c rest ih =>
    intro f
    by_cases h : f.length < MAX_CONCURRENT_EXPORTS
    · obtain ⟨t, q2, h1, h2, h3⟩ := ih (f ++ [batchJob fetch now format c])
      refine ⟨c :: t, q2, ?_, by simp [h2], ?_⟩
      · simp only [fillUp, if_pos h]
        rw [h1]
        simp
      · intro hq2
        have := h3 hq2
        simp at this ⊢
        omega
    · refine ⟨[], c :: rest, ?_, by simp, ?_⟩
      · simp only [fillUp, if_neg h]
        simp
      · intro _
        simp only [List.map_nil, List.append_nil]
        omega

/-- Filling never pushes the in-progress set beyond the ceiling. -/
theorem fillUp_le (fetch : Character → FetchOutcome) (now : Nat)
    (format : List Nat) :
    ∀ (q : List Character) (f : List BatchItem),
    f.length ≤ MAX_CONCURRENT_EXPORTS →
    ((fillUp fetch now format q f).2).length ≤ MAX_CONCURRENT_EXPORTS := by
  intro q
  induction q with
  | nil =>
    intro f h
    simpa [fillUp] using h
  | cons c rest ih =>
    intro f h
    by_cases hlt : f.length < MAX_CONCURRENT_EXPORTS
    · simp only [fillUp, if_pos hlt]
      exact ih _ (by simp only [List.length_append, List.length_cons, List.length_nil]; omega)
    · simp only [fillUp, if_neg hlt]
      exact h

/-- After filling from a nonempty queue or set, the in-progress set is
nonempty. -/
theorem fillUp_ne_nil (fetch : Character → FetchOutcome) (now : Nat)
    (format : List Nat) (q : List Character) (f : List BatchItem)
    (h : ¬(q = [] ∧ f = [])) :
    ((fillUp fetch now format q f).2) ≠ [] := by
  obtain ⟨t, q2, h1, h2, h3⟩ := fillUp_spec fetch now format q f
  rw [h1]
  simp only
  intro hc
  rw [List.append_eq_nil] at hc
  obtain ⟨hf, ht⟩ := hc
  have htn : t = [] := by
    cases t with
    | nil => rfl
    | cons a b => simp at ht
  subst htn hf
  rcases (not_and_or.mp h) with hq | hfne
  · rw [List.nil_append] at h2
    subst h2
    have := h3 hq
    simp [MAX_CONCURRENT_EXPORTS] at this
  · exact hfne rfl

/-- Removing the settled job at a valid index is a permutation with the
settled job put back in front. -/
theorem getD_cons_eraseIdx_perm {α : Type} (l : List α) (k : Nat) (d : α)
    (hk : k < l.length) :
    List.Perm (l.getD k d :: l.eraseIdx k) l := by
  rw [List.eraseIdx_eq_take_drop_succ, List.getD_eq_getElem l d hk]
  have hmid : List.Perm (l[k] :: (l.take k ++ l.drop (k + 1)))
      (l.take k ++ l[k] :: l.drop (k + 1)) := List.perm_middle.symm
  refine hmid.trans ?_
  rw [← List.drop_eq_getElem_cons hk, List.take_append_drop]

/-- The results accumulated by the batch loop are, up to the completion
order chosen by the schedule, exactly the accumulator plus one item per
in-progress job plus one item per queued character. -/
theorem batchLoop_perm (fetch : Character → FetchOutcome) (now : Nat)
    (format : List Nat) (sched : Nat → Nat) :
    ∀ (fuel : Nat) (queue : List Character) (inProgress : List BatchItem)
      (step : Nat) (results : List BatchItem),
    queue.length + inProgress.length < fuel →
    List.Perm (batchLoop fetch now format sched fuel queue inProgress step results)
      (results ++ inProgress ++ queue.map (batchJob fetch now format)) := by
  intro fuel
  induction fuel with
  | zero =>
    intro q f s r h
    omega
  | succ n ih =>
    intro q f s r h
    by_cases hemp : q = [] ∧ f = []
    · obtain ⟨hq, hf⟩ := hemp
      subst hq hf
      simp [batchLoop]
    · obtain ⟨t, q2, h1, h2, _⟩ := fillUp_spec fetch now format q f
      set f2 := f ++ t.map (batchJob fetch now format) with hf2
      have hne : f2 ≠ [] := by
        have := fillUp_ne_nil fetch now format q f hemp
        rw [h1] at this
        exact this
      have hlen0 : ¬(f2.length = 0) := by
        simpa [List.length_eq_zero] using hne
      simp only [batchLoop, if_neg hemp, h1, if_neg hlen0]
      set k := sched s % f2.length with hkdef
      have hk : k < f2.length := Nat.mod_lt _ (Nat.pos_of_ne_zero hlen0)
      have hlen2 : q2.length + (f2.eraseIdx k).length < n := by
        rw [List.length_eraseIdx_of_lt hk]
        have hql : q.length = t.length + q2.length := by
          rw [h2]; simp
        have hfl : f2.length = f.length + t.length := by
          rw [hf2]; simp
        omega
      have hperm := ih q2 (f2.eraseIdx k) (s + 1)
        (r ++ [f2.getD k defaultBatchItem]) hlen2
      refine hperm.trans ?_
      have hput := getD_cons_eraseIdx_perm f2 k defaultBatchItem hk
      have heq1 : (r ++ [f2.getD k defaultBatchItem]) ++ f2.eraseIdx k ++
          q2.map (batchJob fetch now format) =
          r ++ (f2.getD k defaultBatchItem :: f2.eraseIdx k) ++
            q2.map (batchJob fetch now format) := by simp
      rw [heq1]
      have hp2 := List.Perm.append_right (q2.map (batchJob fetch now format))
        (List.Perm.append_left r hput)
      refine hp2.trans ?_
      have heq2 : r ++ f2 ++ q2.map (batchJob fetch now format) =
          r ++ f ++ q.map (batchJob fetch now format) := by
        rw [hf2, h2]
        simp [List.append_assoc]
      rw [heq2]

/-- The batch export returns one `{...result, character}` item per submitted
character, up to completion order. -/
theorem batchExport_perm (fetch : Character → FetchOutcome) (now : Nat)
    (format : List Nat) (sched : Nat → Nat) (characters : List Character) :
    List.Perm (batchExportCharacters fetch now format sched characters)
      (characters.map (batchJob fetch now format)) := by
  have h := batchLoop_perm fetch now format sched (characters.length + 1)
    characters [] 0 [] (by simp)
  simpa [batchExportCharacters] using h

/-- Every in-flight size recorded at a suspension point stays at or below
the ceiling. -/
theorem batchTrace_le (fetch : Character → FetchOutcome) (now : Nat)
    (format : List Nat) (sched : Nat → Nat) :
    ∀ (fuel : Nat) (queue : List Character) (inProgress : List BatchItem)
      (step : Nat),
    inProgress.length ≤ MAX_CONCURRENT_EXPORTS →
    ∀ x ∈ batchTrace fetch now format sched fuel queue inProgress step,
      x ≤ MAX_CONCURRENT_EXPORTS := by
  intro fuel
  induction fuel with
  | zero =>
    intro q f s _ x hx
    simp [batchTrace] at hx
  | succ n ih =>
    intro q f s hf x hx
    by_cases hemp : q = [] ∧ f = []
    · simp [batchTrace, hemp] at hx
    · simp only [batchTrace, if_neg hemp] at hx
      by_cases hlen0 : ((fillUp fetch now format q f).2).length = 0
      · rw [if_pos hlen0] at hx
        simp at hx
      · rw [if_neg hlen0] at hx
        have hle : ((fillUp fetch now format q f).2).length ≤
            MAX_CONCURRENT_EXPORTS := fillUp_le fetch now format q f hf
        rcases List.mem_cons.mp hx with hx1 | hx2
        · subst hx1
          exact hle
        · refine ih _ _ (s + 1) ?_ x hx2
          have := List.length_eraseIdx_le ((fillUp fetch now format q f).2)
            (sched s % ((fillUp fetch now format q f).2).length)
          omega

/-- The trace records exactly one suspension per settled result. -/
theorem batchTrace_length (fetch : Character → FetchOutcome) (now : Nat)
    (format : List Nat) (sched : Nat → Nat) :
    ∀ (fuel : Nat) (queue : List Character) (inProgress : List BatchItem)
      (step : Nat) (results : List BatchItem),
    (batchTrace fetch now format sched fuel queue inProgress step).length +
      results.length =
    (batchLoop fetch now format sched fuel queue inProgress step results).length := by
  intro fuel
  induction fuel with
  | zero =>
    intro q f s r
    simp [batchTrace, batchLoop]
  | succ n ih =>
    intro q f s r
    by_cases hemp : q = [] ∧ f = []
    · simp [batchTrace, batchLoop, hemp]
    · simp only [batchTrace, batchLoop, if_neg hemp]
      by_cases hlen0 : ((fillUp fetch now format q f).2).length = 0
      · rw [if_pos hlen0, if_pos hlen0]
        simp
      · rw [if_neg hlen0, if_neg hlen0]
        have := ih (fillUp fetch now format q f).1
          (((fillUp fetch now format q f).2).eraseIdx
            (sched s % ((fillUp fetch now format q f).2).length)) (s + 1)
          (r ++ [((fillUp fetch now format q f).2).getD
            (sched s % ((fillUp fetch now format q f).2).length) defaultBatchItem])
        simp only [List.length_cons, List.length_append, List.length_singleton,
          List.length_nil] at this ⊢
        omega

/-! ### Tally lemmas -/

theorem tallyAux_exported :
    ∀ (l : List BatchItem) (e f : Nat) (errs : List (List Nat)),
    (tallyAux l e f errs).1 = e + l.countP countsAsExported := by
  intro l
  induction l with
  | nil =>
    intro e f errs
    simp [tallyAux]
  | cons b rest ih =>
    intro e f errs
    by_cases hb : countsAsExported b <;>
      simp [tallyAux, hb, ih, List.countP_cons] <;> omega

theorem tallyAux_failed :
    ∀ (l : List BatchItem) (e f : Nat) (errs : List (List Nat)),
    (tallyAux l e f errs).2.1 = f + l.countP (fun b => !countsAsExported b) := by
  intro l
  induction l with
  | nil =>
    intro e f errs
    simp [tallyAux]
  | cons b rest ih =>
    intro e f errs
    by_cases hb : countsAsExported b <;>
      simp [tallyAux, hb, ih, List.countP_cons] <;> omega

theorem tallyAux_errors :
    ∀ (l : List BatchItem) (e f : Nat) (errs : List (List Nat)),
    (tallyAux l e f errs).2.2 =
      errs ++ (l.filter (fun b => !countsAsExported b)).map errMsg := by
  intro l
  induction l with
  | nil =>
    intro e f errs
    simp [tallyAux]
  | cons b rest ih =>
    intro e f errs
    by_cases hb : countsAsExported b <;>
      simp [tallyAux, hb, ih, List.filter_cons]

theorem countsAsExported_countP_add (l : List BatchItem) :
    l.countP countsAsExported + l.countP (fun b => !countsAsExported b) =
      l.length := by
  induction l with
  | nil => simp
  | cons b rest ih =>
    by_cases hb : countsAsExported b <;>
      simp [List.countP_cons, hb] <;> omega

theorem length_filterMap_isSome {α β : Type} (g : α → Option β) :
    ∀ l : List α, (l.filterMap g).length =
      l.countP (fun a => (g a).isSome) := by
  intro l
  induction l with
  | nil => rfl
  | cons a t ih =>
    cases hg : g a with
    | none => simp [List.filterMap_cons, hg, List.countP_cons, ih]
    | some b => simp [List.filterMap_cons, hg, List.countP_cons, ih]

/-- C3: batch total accounting.  For every job list, every per-job outcome
function and every completion order, the orchestrator returns exactly one
result per submitted job — the result sequence is a permutation of the
per-job results — and the ZIP tally satisfies
`exported + failed = number of submitted jobs`. -/
theorem C3_batch_total_accounting (fetch : Character → FetchOutcome) (now : Nat)
    (format : List Nat) (sched : Nat → Nat) (characters : List Character) :
    (batchExportCharacters fetch now format sched characters).length =
      characters.length ∧
    List.Perm (batchExportCharacters fetch now format sched characters)
      (characters.map (batchJob fetch now format)) ∧
    (tallyAux (batchExportCharacters fetch now format sched characters) 0 0 []).1 +
      (tallyAux (batchExportCharacters fetch now format sched characters) 0 0 []).2.1 =
      characters.length := by
  have hperm := batchExport_perm fetch now format sched characters
  have hlen : (batchExportCharacters fetch now format sched characters).length =
      characters.length := by
    rw [hperm.length_eq, List.length_map]
  refine ⟨hlen, hperm, ?_⟩
  rw [tallyAux_exported, tallyAux_failed]
  have := countsAsExported_countP_add
    (batchExportCharacters fetch now format sched characters)
  omega

/-- C3 (witness): twelve jobs of which exactly the three with
`id % 4 = 3` fail; the tally reports 9 exported, 3 failed, 12 results. -/
theorem C3_batch_total_accounting_witness :
    (tallyAux (batchExportCharacters
      (fun c => if c.id % 4 = 3 then FetchOutcome.thrown [98] else FetchOutcome.ok [1])
      0 [106] (fun n => n)
      [Character.mk 0 [65] [97, 46, 112, 110, 103],
       Character.mk 1 [65] [97, 46, 112, 110, 103],
       Character.mk 2 [65] [97, 46, 112, 110, 103],
       Character.mk 3 [65] [97, 46, 112, 110, 103],
       Character.mk 4 [65] [97, 46, 112, 110, 103],
       Character.mk 5 [65] [97, 46, 112, 110, 103],
       Character.mk 6 [65] [97, 46, 112, 110, 103],
       Character.mk 7 [65] [97, 46, 112, 110, 103],
       Character.mk 8 [65] [97, 46, 112, 110, 103],
       Character.mk 9 [65] [97, 46, 112, 110, 103],
       Character.mk 10 [65] [97, 46, 112, 110, 103],
       Character.mk 11 [65] [97, 46, 112, 110, 103]]) 0 0 []).1 = 9 ∧
    (tallyAux (batchExportCharacters
      (fun c => if c.id % 4 = 3 then FetchOutcome.thrown [98] else FetchOutcome.ok [1])
      0 [106] (fun n => n)
      [Character.mk 0 [65] [97, 46, 112, 110, 103],
       Character.mk 1 [65] [97, 46, 112, 110, 103],
       Character.mk 2 [65] [97, 46, 112, 110, 103],
       Character.mk 3 [65] [97, 46, 112, 110, 103],
       Character.mk 4 [65] [97, 46, 112, 110, 103],
       Character.mk 5 [65] [97, 46, 112, 110, 103],
       Character.mk 6 [65] [97, 46, 112, 110, 103],
       Character.mk 7 [65] [97, 46, 112, 110, 103],
       Character.mk 8 [65] [97, 46, 112, 110, 103],
       Character.mk 9 [65] [97, 46, 112, 110, 103],
       Character.mk 10 [65] [97, 46, 112, 110, 103],
       Character.mk 11 [65] [97, 46, 112, 110, 103]]) 0 0 []).2.1 = 3 ∧
    (tallyAux (batchExportCharacters
      (fun c => if c.id % 4 = 3 then FetchOutcome.thrown [98] else FetchOutcome.ok [1])
      0 [106] (fun n => n)
      [Character.mk 0 [65] [97, 46, 112, 110, 103],
       Character.mk 1 [65] [97, 46, 112, 110, 103],
       Character.mk 2 [65] [97, 46, 112, 110, 103],
       Character.mk 3 [65] [97, 46, 112, 110, 103],
       Character.mk 4 [65] [97, 46, 112, 110, 103],
       Character.mk 5 [65] [97, 46, 112, 110, 103],
       Character.mk 6 [65] [97, 46, 112, 110, 103],
       Character.mk 7 [65] [97, 46, 112, 110, 103],
       Character.mk 8 [65] [97, 46, 112, 110, 103],
       Character.mk 9 [65] [97, 46, 112, 110, 103],
       Character.mk 10 [65] [97, 46, 112, 110, 103],
       Character.mk 11 [65] [97, 46, 112, 110, 103]]) 0 0 []).1 +
    (tallyAux (batchExportCharacters
      (fun c => if c.id % 4 = 3 then FetchOutcome.thrown [98] else FetchOutcome.ok [1])
      0 [106] (fun n => n)
      [Character.mk 0 [65] [97, 46, 112, 110, 103],
       Character.mk 1 [65] [97, 46, 112, 110, 103],
       Character.mk 2 [65] [97, 46, 112, 110, 103],
       Character.mk 3 [65] [97, 46, 112, 110, 103],
       Character.mk 4 [65] [97, 46, 112, 110, 103],
       Character.mk 5 [65] [97, 46, 112, 110, 103],
       Character.mk 6 [65] [97, 46, 112, 110, 103],
       Character.mk 7 [65] [97, 46, 112, 110, 103],
       Character.mk 8 [65] [97, 46, 112, 110, 103],
       Character.mk 9 [65] [97, 46, 112, 110, 103],
       Character.mk 10 [65] [97, 46, 112, 110, 103],
       Character.mk 11 [65] [97, 46, 112, 110, 103]]) 0 0 []).2.1 = 12 := by
  refine ⟨by rfl, by rfl, ?_⟩
  exact (C3_batch_total_accounting
    (fun c => if c.id % 4 = 3 then FetchOutcome.thrown [98] else FetchOutcome.ok [1])
    0 [106] (fun n => n)
    [Character.mk 0 [65] [97, 46, 112, 110, 103],
     Character.mk 1 [65] [97, 46, 112, 110, 103],
     Character.mk 2 [65] [97, 46, 112, 110, 103],
     Character.mk 3 [65] [97, 46, 112, 110, 103],
     Character.mk 4 [65] [97, 46, 112, 110, 103],
     Character.mk 5 [65] [97, 46, 112, 110, 103],
     Character.mk 6 [65] [97, 46, 112, 110, 103],
     Character.mk 7 [65] [97, 46, 112, 110, 103],
     Character.mk 8 [65] [97, 46, 112, 110, 103],
     Character.mk 9 [65] [97, 46, 112, 110, 103],
     Character.mk 10 [65] [97, 46, 112, 110, 103],
     Character.mk 11 [65] [97, 46, 112, 110, 103]]).2.2

/-- C4: concurrency ceiling.  `MAX_CONCURRENT_EXPORTS` is 5, and along every
execution — every job list, every per-job outcome, every completion order —
the size of the in-progress set recorded at each `await` suspension point
never exceeds it; the trace has exactly one entry per settled result. -/
theorem C4_concurrency_ceiling (fetch : Character → FetchOutcome) (now : Nat)
    (format : List Nat) (sched : Nat → Nat) (characters : List Character) :
    MAX_CONCURRENT_EXPORTS = 5 ∧
    (∀ x ∈ batchTrace fetch now format sched (characters.length + 1)
        characters [] 0, x ≤ MAX_CONCURRENT_EXPORTS) ∧
    (batchTrace fetch now format sched (characters.length + 1)
        characters [] 0).length =
      (batchExportCharacters fetch now format sched characters).length := by
  refine ⟨rfl, ?_, ?_⟩
  · exact batchTrace_le fetch now format sched (characters.length + 1)
      characters [] 0 (by simp)
  · have h := batchTrace_length fetch now format sched (characters.length + 1)
      characters [] 0 []
    simpa [batchExportCharacters] using h

/-- C4 (witness): with twelve jobs and sequential settling the recorded
in-flight sizes are eight 5s followed by the drain 4, 3, 2, 1. -/
theorem C4_concurrency_ceiling_witness :
    batchTrace
      (fun c => if c.id % 4 = 3 then FetchOutcome.thrown [98] else FetchOutcome.ok [1])
      0 [106] (fun _ => 0) 13
      [Character.mk 0 [65] [97, 46, 112, 110, 103],
       Character.mk 1 [65] [97, 46, 112, 110, 103],
       Character.mk 2 [65] [97, 46, 112, 110, 103],
       Character.mk 3 [65] [97, 46, 112, 110, 103],
       Character.mk 4 [65] [97, 46, 112, 110, 103],
       Character.mk 5 [65] [97, 46, 112, 110, 103],
       Character.mk 6 [65] [97, 46, 112, 110, 103],
       Character.mk 7 [65] [97, 46, 112, 110, 103],
       Character.mk 8 [65] [97, 46, 112, 110, 103],
       Character.mk 9 [65] [97, 46, 112, 110, 103],
       Character.mk 10 [65] [97, 46, 112, 110, 103],
       Character.mk 11 [65] [97, 46, 112, 110, 103]] [] 0 =
      [5, 5, 5, 5, 5, 5, 5, 5, 4, 3, 2, 1] ∧
    5 ≤ MAX_CONCURRENT_EXPORTS := by
  refine ⟨by rfl, ?_⟩
  exact (C4_concurrency_ceiling
    (fun c => if c.id % 4 = 3 then FetchOutcome.thrown [98] else FetchOutcome.ok [1])
    0 [106] (fun _ => 0)
    [Character.mk 0 [65] [97, 46, 112, 110, 103],
     Character.mk 1 [65] [97, 46, 112, 110, 103],
     Character.mk 2 [65] [97, 46, 112, 110, 103],
     Character.mk 3 [65] [97, 46, 112, 110, 103],
     Character.mk 4 [65] [97, 46, 112, 110, 103],
     Character.mk 5 [65] [97, 46, 112, 110, 103],
     Character.mk 6 [65] [97, 46, 112, 110, 103],
     Character.mk 7 [65] [97, 46, 112, 110, 103],
     Character.mk 8 [65] [97, 46, 112, 110, 103],
     Character.mk 9 [65] [97, 46, 112, 110, 103],
     Character.mk 10 [65] [97, 46, 112, 110, 103],
     Character.mk 11 [65] [97, 46, 112, 110, 103]]).2.1 5 (by decide)

/-- Shape of the ZIP report when at least one requested ID resolved. -/
theorem exportCharactersAsZip_of_ne (fetch : Character → FetchOutcome)
    (now : Nat) (format : List Nat) (sched : Nat → Nat)
    (allCharacters : List Character) (characterIds : List Nat)
    (subs : List Character) (results : List BatchItem)
    (hsub : subs = characterIds.filterMap
      (fun i => allCharacters.find? (fun c => c.id == i)))
    (hres : results = batchExportCharacters fetch now format sched subs)
    (hne : subs ≠ []) :
    exportCharactersAsZip fetch now format sched allCharacters characterIds =
      (if (tallyAux results 0 0 []).1 = 0 then
        ZipReport.mk false 0 characterIds.length (some [noneExportedMsg])
      else
        ZipReport.mk true (tallyAux results 0 0 []).1 (tallyAux results 0 0 []).2.1
          (if 0 < (tallyAux results 0 0 []).2.1 then
            some (tallyAux results 0 0 []).2.2 else none)) := by
  have hlen : ¬(subs.length = 0) := by
    simpa [List.length_eq_zero] using hne
  simp only [exportCharactersAsZip]
  rw [← hsub, if_neg hlen, ← hres]

/-- C5: failure isolation and the aggregate outcome.  A thrown error or a
non-ok HTTP response in one job's fetch phase is converted at that job's
boundary into a `{success: false, error}` result; every sibling job is still
run and reported (the result multiset is the full per-job multiset); given at
least one resolvable ID, the batch call reports `success: true` exactly when
at least one job succeeded, in which case the per-job failure reasons are
attached whenever any job failed, and reports `success: false` when zero
jobs succeeded. -/
theorem C5_failure_isolation_and_outcome (fetch : Character → FetchOutcome)
    (now : Nat) (format : List Nat) (sched : Nat → Nat)
    (allCharacters : List Character) (characterIds : List Nat)
    (subs : List Character) (results : List BatchItem) (cnt : Nat)
    (hsub : subs = characterIds.filterMap
      (fun i => allCharacters.find? (fun c => c.id == i)))
    (hres : results = batchExportCharacters fetch now format sched subs)
    (hcnt : cnt = results.countP countsAsExported)
    (hne : subs ≠ []) :
    (∀ c msg, fetch c = .thrown msg →
      exportSingleCharacterToBlob fetch now c format =
        ExportResult.mk false none none (some msg)) ∧
    (∀ c status statusText, fetch c = .httpError status statusText →
      exportSingleCharacterToBlob fetch now c format =
        ExportResult.mk false none none (some (httpErrMsg status statusText))) ∧
    List.Perm results (subs.map (batchJob fetch now format)) ∧
    ((exportCharactersAsZip fetch now format sched allCharacters
        characterIds).success = true ↔ 0 < cnt) ∧
    (0 < cnt →
      exportCharactersAsZip fetch now format sched allCharacters characterIds =
        ZipReport.mk true cnt (subs.length - cnt)
          (if 0 < subs.length - cnt then
            some ((results.filter (fun b => !countsAsExported b)).map errMsg)
            else none)) ∧
    (cnt = 0 →
      exportCharactersAsZip fetch now format sched allCharacters characterIds =
        ZipReport.mk false 0 characterIds.length (some [noneExportedMsg])) := by
  have hrep := exportCharactersAsZip_of_ne fetch now format sched allCharacters
    characterIds subs results hsub hres hne
  have hexp : (tallyAux results 0 0 []).1 = cnt := by
    rw [tallyAux_exported, hcnt]
    omega
  have hreslen : results.length = subs.length := by
    rw [hres, (batchExport_perm fetch now format sched subs).length_eq,
      List.length_map]
  have hfail : (tallyAux results 0 0 []).2.1 = subs.length - cnt := by
    rw [tallyAux_failed]
    have h1 := countsAsExported_countP_add results
    omega
  have herrs : (tallyAux results 0 0 []).2.2 =
      (results.filter (fun b => !countsAsExported b)).map errMsg := by
    rw [tallyAux_errors]
    simp
  refine ⟨?_, ?_, ?_, ?_, ?_, ?_⟩
  · intro c msg h
    simp only [exportSingleCharacterToBlob, h]
  · intro c status statusText h
    simp only [exportSingleCharacterToBlob, h]
  · rw [hres]
    exact batchExport_perm fetch now format sched subs
  · rw [hrep]
    by_cases hc : cnt = 0
    · rw [hexp, if_pos hc]
      simp [hc]
    · rw [hexp, if_neg hc]
      simp [Nat.pos_of_ne_zero hc]
  · intro hpos
    rw [hrep, hexp, if_neg (by omega), hfail, herrs]
  · intro hc
    rw [hrep, hexp, if_pos hc]

/-- C5 (witness): three resolvable characters, the one with id 1 throws in
its fetch phase; its failure is boxed into its own result, the other two
still succeed, and the batch reports overall success with the failure
reason attached. -/
theorem C5_failure_isolation_and_outcome_witness :
    exportSingleCharacterToBlob
      (fun c => if c.id = 1 then FetchOutcome.thrown [98] else FetchOutcome.ok [1])
      0 (Character.mk 1 [66] [97, 46, 112, 110, 103]) [106] =
      ExportResult.mk false none none (some [98]) ∧
    exportCharactersAsZip
      (fun c => if c.id = 1 then FetchOutcome.thrown [98] else FetchOutcome.ok [1])
      0 [106] (fun n => n)
      [Character.mk 0 [65] [97, 46, 112, 110, 103],
       Character.mk 1 [66] [97, 46, 112, 110, 103],
       Character.mk 2 [67] [97, 46, 112, 110, 103]] [0, 1, 2] =
      ZipReport.mk true 2 1 (some [[66, 58, 32, 98]]) := by
  have h := C5_failure_isolation_and_outcome
    (fun c => if c.id = 1 then FetchOutcome.thrown [98] else FetchOutcome.ok [1])
    0 [106] (fun n => n)
    [Character.mk 0 [65] [97, 46, 112, 110, 103],
     Character.mk 1 [66] [97, 46, 112, 110, 103],
     Character.mk 2 [67] [97, 46, 112, 110, 103]] [0, 1, 2]
    _ _ _ rfl rfl rfl (by decide)
  refine ⟨h.1 (Character.mk 1 [66] [97, 46, 112, 110, 103]) [98] (by rfl), ?_⟩
  have h5 := h.2.2.2.2.1 (by decide)
  rw [h5]
  rfl

/-- C10 (amended): unresolvable IDs are silently dropped before submission —
the submitted job count equals the number of resolvable IDs, and with at
least one success the report's `exported + failed` totals the resolvable
(not the requested) count.  But the zero-success catch path reports
`failed = characterIds.length` regardless of resolvability: overall failure
with `failed` equal to the full requested count also occurs whenever all
submitted jobs fail, not only when every requested ID is unresolvable. -/
theorem C10_unknown_id_filtering (fetch : Character → FetchOutcome) (now : Nat)
    (format : List Nat) (sched : Nat → Nat) (allCharacters : List Character)
    (characterIds : List Nat) (subs : List Character) (results : List BatchItem)
    (cnt : Nat)
    (hsub : subs = characterIds.filterMap
      (fun i => allCharacters.find? (fun c => c.id == i)))
    (hres : results = batchExportCharacters fetch now format sched subs)
    (hcnt : cnt = results.countP countsAsExported) :
    subs.length = characterIds.countP
      (fun i => (allCharacters.find? (fun c => c.id == i)).isSome) ∧
    results.length = subs.length ∧
    (0 < cnt →
      (exportCharactersAsZip fetch now format sched allCharacters
          characterIds).exported +
        (exportCharactersAsZip fetch now format sched allCharacters
          characterIds).failed = subs.length) ∧
    (cnt = 0 → subs ≠ [] →
      exportCharactersAsZip fetch now format sched allCharacters characterIds =
        ZipReport.mk false 0 characterIds.length (some [noneExportedMsg])) ∧
    (subs = [] →
      exportCharactersAsZip fetch now format sched allCharacters characterIds =
        ZipReport.mk false 0 characterIds.length (some [noValidMsg])) := by
  have hreslen : results.length = subs.length := by
    rw [hres, (batchExport_perm fetch now format sched subs).length_eq,
      List.length_map]
  refine ⟨?_, hreslen, ?_, ?_, ?_⟩
  · rw [hsub, length_filterMap_isSome]
  · intro hpos
    have hne : subs ≠ [] := by
      intro hnil
      have hle : cnt ≤ results.length := by
        rw [hcnt]
        exact List.countP_le_length _
      rw [hreslen, hnil] at hle
      simp at hle
      omega
    have hrep := exportCharactersAsZip_of_ne fetch now format sched allCharacters
      characterIds subs results hsub hres hne
    have hexp : (tallyAux results 0 0 []).1 = cnt := by
      rw [tallyAux_exported, hcnt]
      omega
    have hfail : (tallyAux results 0 0 []).2.1 = subs.length - cnt := by
      rw [tallyAux_failed]
      have h1 := countsAsExported_countP_add results
      omega
    rw [hrep, hexp, if_neg (by omega)]
    simp only
    rw [hfail]
    have hle : cnt ≤ results.length := by
      rw [hcnt]
      exact List.countP_le_length countsAsExported
    omega
  · intro hc hne
    have hrep := exportCharactersAsZip_of_ne fetch now format sched allCharacters
      characterIds subs results hsub hres hne
    have hexp : (tallyAux results 0 0 []).1 = cnt := by
      rw [tallyAux_exported, hcnt]
      omega
    rw [hrep, hexp, if_pos hc]
  · intro hnil
    have hlen : (characterIds.filterMap
        (fun i => allCharacters.find? (fun c => c.id == i))).length = 0 := by
      rw [← hsub, hnil]
      rfl
    simp only [exportCharactersAsZip]
    rw [if_pos hlen]

/-- C10 (counterexample): one requested ID, perfectly resolvable, whose only
job fails: the call returns overall failure with `failed` equal to the full
requested-ID count even though no requested ID was unresolvable — refuting
"only when every requested ID is unresolvable does the call return overall
failure with failed equal to the full requested-ID count". -/
theorem C10_resolvable_id_total_failure_counterexample :
    (([Character.mk 0 [65] [97, 46, 112, 110, 103]].find?
        (fun c => c.id == 0)).isSome = true) ∧
    exportCharactersAsZip (fun _ => FetchOutcome.thrown [98]) 0 [106]
        (fun _ => 0) [Character.mk 0 [65] [97, 46, 112, 110, 103]] [0] =
      ZipReport.mk false 0 1 (some [noneExportedMsg]) :=
  ⟨by rfl, by rfl⟩

/-- C10 (witness): requested IDs `[0, 5, 1]` against a two-character list —
the unknown ID 5 is dropped, two jobs run and succeed, and the report totals
the two resolvable IDs. -/
theorem C10_unknown_id_filtering_witness :
    ([0, 5, 1].countP (fun i =>
      (([Character.mk 0 [65] [97, 46, 112, 110, 103],
         Character.mk 1 [66] [97, 46, 112, 110, 103]]).find?
        (fun c => c.id == i)).isSome)) = 2 ∧
    exportCharactersAsZip (fun _ => FetchOutcome.ok [1]) 0 [106] (fun n => n)
      [Character.mk 0 [65] [97, 46, 112, 110, 103],
       Character.mk 1 [66] [97, 46, 112, 110, 103]] [0, 5, 1] =
      ZipReport.mk true 2 0 none ∧
    (exportCharactersAsZip (fun _ => FetchOutcome.ok [1]) 0 [106] (fun n => n)
      [Character.mk 0 [65] [97, 46, 112, 110, 103],
       Character.mk 1 [66] [97, 46, 112, 110, 103]] [0, 5, 1]).exported +
    (exportCharactersAsZip (fun _ => FetchOutcome.ok [1]) 0 [106] (fun n => n)
      [Character.mk 0 [65] [97, 46, 112, 110, 103],
       Character.mk 1 [66] [97, 46, 112, 110, 103]] [0, 5, 1]).failed = 2 := by
  have h := C10_unknown_id_filtering (fun _ => FetchOutcome.ok [1]) 0 [106]
    (fun n => n)
    [Character.mk 0 [65] [97, 46, 112, 110, 103],
     Character.mk 1 [66] [97, 46, 112, 110, 103]] [0, 5, 1]
    _ _ _ rfl rfl rfl
  exact ⟨by rfl, by rfl, h.2.2.1 (by decide)⟩
